import Mathlib

set_option maxRecDepth 100000

/-!
# Verification of the parallel two-sum anomaly scanner

Shallow embedding of `src/main.rs`: a program that scans a buffer of
newline-separated ASCII decimal integers and reports every value that is not
the sum of two distinct values among the `ITEM_RANGE_SIZE` numbers immediately
preceding it.

Modelling conventions:
* the memory-mapped byte buffer is a `List Nat` of byte values;
* `u128` values are `Nat`s; `u128` addition is taken modulo `U128_MOD`;
* `usize` subtraction appears only in contexts where the theorems' hypotheses
  keep it non-negative (Rust would otherwise panic on underflow), so plain
  truncated `Nat` subtraction is used;
* out-of-range slicing and panicking `expect` calls are modelled by
  `Except`/`Option` results (`PErr.scratchOverflow` for the out-of-bounds
  scratch-buffer write, `PErr.malformedNumber` for the two `expect`s inside
  `parse_number_from_str_buffer`);
* the `evictLog` field of `ProcState` is a ghost instrumentation (not present
  in the source): it records the fill level `numbers_idx` at each call of
  `process_next_number`, so that statements about when the evict-and-validate
  step runs can be expressed.  It does not influence any other field.
-/

/-! ## Constants from the source -/

def MIN_PARALLELISM : Nat := 4

/-- The window size `W`. -/
def ITEM_RANGE_SIZE : Nat := 100

def NUMBERS_BUFFER_SIZE : Nat := ITEM_RANGE_SIZE + 1

def MARGIN_AVOID_LINE_BREAK : Nat := 2

/-- The delimiter byte `b'\n'`. -/
def SPLIT_MARKER : Nat := 10

/-- Maximum number of decimal digits of a `u128`. -/
def STR_U128_LEN : Nat := 39

/-- The modulus `2^128` of `u128` arithmetic. -/
def U128_MOD : Nat := 2 ^ 128

/-! ## Window validator (`is_number_valid`) -/

/-- Source function `is_number_valid`: for each candidate `outer ≤ target`
(enumerate + filter), scan the later-indexed candidates (`skip (idx+1)`) for
an `inner ≤ target` with `inner + outer == target` in `u128` arithmetic. -/
def is_number_valid (target : Nat) (candidates : List Nat) : Bool :=
  (candidates.enum.filter (fun p => decide (p.2 ≤ target))).any (fun p =>
    (candidates.drop (p.1 + 1)).any (fun inner =>
      decide (inner ≤ target) && decide ((inner + p.2) % U128_MOD = target)))

/-! ## Number parser (`parse_number_from_str_buffer`)

The source delegates to `std::str::from_utf8` and `u128::from_str`, both
followed by `expect` (a panic on failure, modelled as `none`).  Per the Rust
standard library, `u128::from_str` accepts an optional leading `'+'` (byte
43), then a non-empty run of ASCII digits, and fails on any other byte, on an
empty input, and on overflow past `u128::MAX` (checked at each accumulation
step).  Byte runs that are not valid UTF-8 fail at the `from_utf8` step; they
contain a non-digit byte, so they are also `none` here. -/

def parseDigitsAux : Nat → List Nat → Option Nat
  | acc, [] => some acc
  | acc, b :: bs =>
    if 48 ≤ b ∧ b ≤ 57 then
      let acc2 := acc * 10 + (b - 48)
      if acc2 < U128_MOD then parseDigitsAux acc2 bs else none
    else none

def parse_number_from_str_buffer (bs : List Nat) : Option Nat :=
  match bs with
  | [] => none
  | b :: rest =>
    if b = 43 then
      if rest = [] then none else parseDigitsAux 0 rest
    else parseDigitsAux 0 (b :: rest)

/-- The base-10 value of a digit-byte run. -/
def digitsVal (ds : List Nat) : Nat :=
  ds.foldl (fun a b => a * 10 + (b - 48)) 0

/-! ## Chunk partitioner (`get_right_bounds`, `get_bounds`) -/

/-- The `while` loop of `get_right_bounds`: walk from `idx` while fewer than
`ITEM_RANGE_SIZE` delimiters have been counted; the byte just before the 1st
delimiter becomes `right_bound`, the byte just before the 100th becomes
`right_bound_overflow`.  The first argument is the remaining bytes
(`buf.drop idx`). -/
def grbLoop : List Nat → Nat → Nat → Nat → Nat → Nat × Nat
  | [], _, _, rb, rbo => (rb, rbo)
  | b :: rest, idx, cnt, rb, rbo =>
    if 100 ≤ cnt then (rb, rbo)
    else if b = SPLIT_MARKER then
      let cnt' := cnt + 1
      let rb' := if cnt' = 1 then idx - 1 else rb
      let rbo' := if cnt' = 100 then idx - 1 else rbo
      grbLoop rest (idx + 1) cnt' rb' rbo'
    else grbLoop rest (idx + 1) cnt rb rbo

/-- Source function `get_right_bounds(mmap, ini_pos)`: both bounds start at
`file_len - MARGIN_AVOID_LINE_BREAK` and are updated by the delimiter scan. -/
def get_right_bounds (buf : List Nat) (ini_pos : Nat) : Nat × Nat :=
  grbLoop (buf.drop ini_pos) ini_pos 0
    (buf.length - MARGIN_AVOID_LINE_BREAK) (buf.length - MARGIN_AVOID_LINE_BREAK)

/-- The loop of `get_bounds`, producing for each `num_core` the triple
`(left_bound, right_bound, right_bound_overflow)`.  The source pushes
`(left_bound, right_bound_overflow)` and threads `right_bound + 2` as the next
left bound; the nominal `right_bound` is recorded here as well so that both
projections of the same loop can be stated. -/
def gbLoop (buf : List Nat) (bytes_per_chunk : Nat) :
    Nat → Nat → Nat → List (Nat × Nat × Nat)
  | _, _, 0 => []
  | prev_left, num_core, rem + 1 =>
    let rb := (get_right_bounds buf (num_core * bytes_per_chunk)).1
    let rbo := (get_right_bounds buf (num_core * bytes_per_chunk)).2
    (prev_left, rb, rbo) ::
      gbLoop buf bytes_per_chunk (rb + MARGIN_AVOID_LINE_BREAK) (num_core + 1) rem

/-- Source function `get_bounds(mmap, parallelism)`: the segments actually scanned,
`(left_bound, right_bound_overflow)` pairs. -/
def get_bounds (buf : List Nat) (parallelism : Nat) : List (Nat × Nat) :=
  (gbLoop buf (buf.length / parallelism) 0 1 parallelism).map
    (fun t => (t.1, t.2.2))

/-- The nominal (non-overlapping) ranges `(left_bound, right_bound)` computed
by the same loop: the internally computed `right_bound` of each `num_core`,
which the source uses to derive the next segment's left bound. -/
def get_bounds_nominal (buf : List Nat) (parallelism : Nat) : List (Nat × Nat) :=
  (gbLoop buf (buf.length / parallelism) 0 1 parallelism).map
    (fun t => (t.1, t.2.1))

/-- Relative positions of the delimiter bytes of a list, in increasing
order.  Auxiliary notion used to reason about `get_right_bounds`. -/
def delimIdxs : List Nat → List Nat
  | [] => []
  | b :: rest =>
    if b = SPLIT_MARKER then 0 :: (delimIdxs rest).map (· + 1)
    else (delimIdxs rest).map (· + 1)

/-- Relative position of the `k`-th (1-indexed) delimiter byte of a list. -/
def kthDelim : List Nat → Nat → Option Nat
  | [], _ => none
  | b :: rest, k =>
    if b = SPLIT_MARKER then
      if k ≤ 1 then some 0 else (kthDelim rest (k - 1)).map (· + 1)
    else (kthDelim rest k).map (· + 1)

/-- The count of complete numbers that the overlap adds past the nominal
bound of a segment split at `p`: each added number is identified by its
terminating delimiter, which lies strictly after the delimiter at
`right_bound + 1` and at or before the one at `right_bound_overflow + 1`. -/
def extensionNumbers (buf : List Nat) (p : Nat) : Nat :=
  ((delimIdxs (buf.drop p)).filter (fun j =>
    decide ((get_right_bounds buf p).1 + 1 < p + j) &&
    decide (p + j ≤ (get_right_bounds buf p).2 + 1))).length

/-- Decidable hypotheses for the amended last-segment claim: fewer than `W`
delimiters at or after the split point `p`, a buffer long enough for the
margin subtraction (`usize` would underflow otherwise), and a first delimiter
position that keeps `idx - 1` non-negative. -/
def c7Hyps (buf : List Nat) (p : Nat) : Bool :=
  decide ((delimIdxs (buf.drop p)).length < ITEM_RANGE_SIZE) &&
  decide (MARGIN_AVOID_LINE_BREAK ≤ buf.length) &&
  (match (delimIdxs (buf.drop p))[0]? with
   | some j => decide (1 ≤ p + j)
   | none => true)

/-- Decidable hypotheses for the amended overlap claim: at least `W`
delimiters at or after the split point `p`, and a first delimiter position
that keeps `idx - 1` non-negative. -/
def c4Hyps (buf : List Nat) (p : Nat) : Bool :=
  decide (ITEM_RANGE_SIZE ≤ (delimIdxs (buf.drop p)).length) &&
  (match (delimIdxs (buf.drop p))[0]? with
   | some j => decide (1 ≤ p + j)
   | none => false)

/-- The delimiter position that closes the `i`-th chunk: one past the
`right_bound` computed for the split point `i * (L / P)`. -/
def splitDelim (buf : List Nat) (P i : Nat) : Nat :=
  (get_right_bounds buf (i * (buf.length / P))).1 + 1

/-- Decidable well-formed-input hypotheses for the amended partition-coverage
claim: `1 ≤ P ≤ L`, `2 ≤ L`, the buffer ends with a delimiter, every internal
split point `i * (L / P)` (for `1 ≤ i < P`) is followed by a delimiter that
ends strictly more than one byte before the next split point, and no
delimiter sits between the last split point `P * (L / P)` and the final
byte. -/
def c3Hyps (buf : List Nat) (P : Nat) : Bool :=
  decide (1 ≤ P) && decide (P ≤ buf.length) && decide (2 ≤ buf.length) &&
  decide (buf[buf.length - 1]? = some SPLIT_MARKER) &&
  ((List.range P).all (fun i =>
    if 1 ≤ i then
      match kthDelim (buf.drop (i * (buf.length / P))) 1 with
      | some j => decide (i * (buf.length / P) + j + 1 < (i + 1) * (buf.length / P))
      | none => false
    else true)) &&
  ((List.range buf.length).all (fun x =>
    if P * (buf.length / P) ≤ x ∧ x < buf.length - 1 then
      decide (¬ buf[x]? = some SPLIT_MARKER)
    else true))

/-! ## Segment scanner (`process`, `process_next_number`) -/

inductive PErr where
  | scratchOverflow
  | malformedNumber
deriving DecidableEq

/-- The mutable state of `process`.  `str_buffer` holds the accumulated digit
bytes in file order (the source keeps them in `str_buffer[str_buffer_idx..39]`,
filling from the high end while iterating the segment in reverse, which is the
same list).  `numbers` is the fixed `NUMBERS_BUFFER_SIZE`-slot array (always of
length 101 here, initialised to zeros like the Rust array).  `evictLog` is
ghost instrumentation, see the header. -/
structure ProcState where
  str_buffer : List Nat
  numbers : List Nat
  numbers_idx : Nat
  result : List Nat
  evictLog : List Nat
deriving DecidableEq

def initState : ProcState :=
  { str_buffer := []
    numbers := List.replicate NUMBERS_BUFFER_SIZE 0
    numbers_idx := 0
    result := []
    evictLog := [] }

/-- Source function `process_next_number`: validate the logically oldest entry `numbers[0]`
against `numbers[1..=ITEM_RANGE_SIZE]`, append it to the result if invalid,
then `rotate_left(1)` and overwrite the last slot with the new number. -/
def process_next_number (result : List Nat) (numbers : List Nat)
    (new_number : Nat) : List Nat × List Nat :=
  let result' :=
    if is_number_valid (numbers.headD 0) (numbers.drop 1) then result
    else result ++ [numbers.headD 0]
  (result', (numbers.rotate 1).set ITEM_RANGE_SIZE new_number)

/-- One iteration of the byte loop of `process` (the bytes arrive in reverse
file order).  A non-delimiter byte is prepended to the scratch buffer; the
source first decrements `str_buffer_idx`, which goes out of bounds when the
scratch already holds `STR_U128_LEN` bytes.  A delimiter byte parses the
scratch, then either evicts-and-validates (buffer full) or inserts. -/
def processStep (s : ProcState) (byte : Nat) : Except PErr ProcState :=
  if byte ≠ SPLIT_MARKER then
    if s.str_buffer.length < STR_U128_LEN then
      Except.ok { s with str_buffer := byte :: s.str_buffer }
    else Except.error PErr.scratchOverflow
  else
    match parse_number_from_str_buffer s.str_buffer with
    | none => Except.error PErr.malformedNumber
    | some new_number =>
      if s.numbers_idx = NUMBERS_BUFFER_SIZE then
        let r := process_next_number s.result s.numbers new_number
        Except.ok { str_buffer := []
                    numbers := r.2
                    numbers_idx := s.numbers_idx
                    result := r.1
                    evictLog := s.evictLog ++ [s.numbers_idx] }
      else
        Except.ok { str_buffer := []
                    numbers := s.numbers.set s.numbers_idx new_number
                    numbers_idx := s.numbers_idx + 1
                    result := s.result
                    evictLog := s.evictLog }

/-- The byte loop of `process` over a list of bytes (already reversed). -/
def processLoop : ProcState → List Nat → Except PErr ProcState
  | s, [] => Except.ok s
  | s, b :: bs =>
    match processStep s b with
    | Except.ok s' => processLoop s' bs
    | Except.error e => Except.error e

/-- Lines 122-127 of the source: parse the bytes left in the scratch buffer
(the first line of the segment, unterminated in the reverse walk), feed the
number through `process_next_number`, then validate the remaining oldest entry
`numbers[0]` once more. -/
def processFinish (s : ProcState) : Except PErr ProcState :=
  match parse_number_from_str_buffer s.str_buffer with
  | none => Except.error PErr.malformedNumber
  | some new_number =>
    let r := process_next_number s.result s.numbers new_number
    let result'' :=
      if is_number_valid (r.2.headD 0) (r.2.drop 1) then r.1
      else r.1 ++ [r.2.headD 0]
    Except.ok { str_buffer := s.str_buffer
                numbers := r.2
                numbers_idx := s.numbers_idx
                result := result''
                evictLog := s.evictLog ++ [s.numbers_idx] }

/-- The function `process` applied to a segment given directly as its byte list
(`mmap[left_bound..=right_bound]`), returning the full final state. -/
def processSegFull (seg : List Nat) : Except PErr ProcState :=
  match processLoop initState seg.reverse with
  | Except.ok s => processFinish s
  | Except.error e => Except.error e

/-- The anomaly list produced by scanning one segment, `none` on a panic. -/
def processSegResult (seg : List Nat) : Option (List Nat) :=
  match processSegFull seg with
  | Except.ok s => some s.result
  | Except.error _ => none

/-- Ghost projection: the fill levels at which evict-and-validate ran. -/
def segEvictLog (seg : List Nat) : List Nat :=
  match processSegFull seg with
  | Except.ok s => s.evictLog
  | Except.error _ => []

/-- Source function `process(mmap, left_bound, right_bound)`: scan the byte range
`mmap[left_bound..=right_bound]`. -/
def process (buf : List Nat) (left_bound right_bound : Nat) : Option (List Nat) :=
  processSegResult ((buf.drop left_bound).take (right_bound + 1 - left_bound))

/-- Scan a list of segments and concatenate the per-segment anomaly lists in
order; `none` as soon as any segment panics. -/
def scanList (buf : List Nat) (segs : List (Nat × Nat)) : Option (List Nat) :=
  segs.foldr
    (fun b acc =>
      match process buf b.1 b.2, acc with
      | some r, some rs => some (r ++ rs)
      | _, _ => none)
    (some [])

/-- The whole scan of `main`: partition with `get_bounds`, scan every segment
with `process`, concatenate the per-segment anomaly lists in segment order
(`par_iter().flat_map(..).collect()` keeps segment order). -/
def fullScan (buf : List Nat) (parallelism : Nat) : Option (List Nat) :=
  scanList buf (get_bounds buf parallelism)

/-- The anomaly multiset obtained by scanning a given list of segments and
merging the per-segment results (order-insensitively). -/
def scanMultiset (buf : List Nat) (segs : List (Nat × Nat)) : Option (Multiset Nat) :=
  segs.foldr
    (fun b acc =>
      match process buf b.1 b.2, acc with
      | some r, some m => some (Multiset.ofList r + m)
      | _, _ => none)
    (some (0 : Multiset Nat))

/-! ## Concrete input buffers used below -/

/-- The byte buffer of the file `"1\n2\n3\n4\n50\n"`. -/
def bufA : List Nat := [49, 10, 50, 10, 51, 10, 52, 10, 53, 48, 10]

/-- The byte buffer of a file of 102 lines, each `"1\n"`. -/
def bufB : List Nat := (List.replicate 102 [49, 10]).flatten

/-! # Theorems -/

/-! ## Window validator -/

/-- Syntactic characterization of `is_number_valid`: it is `true` exactly when
there is a pair of positions `i < j` whose values are both `≤ target` and sum
to `target` in `u128` arithmetic. -/
theorem is_number_valid_eq_true_iff (t : Nat) (cs : List Nat) :
    is_number_valid t cs = true ↔
      ∃ i j, i < j ∧ j < cs.length ∧ cs.getD i 0 ≤ t ∧ cs.getD j 0 ≤ t ∧
        (cs.getD j 0 + cs.getD i 0) % U128_MOD = t := by
  unfold is_number_valid
  rw [List.any_eq_true]
  constructor
  · rintro ⟨⟨i, a⟩, hmem, hinner⟩
    rw [List.mem_filter] at hmem
    obtain ⟨henum, ha⟩ := hmem
    rw [List.mk_mem_enum_iff_getElem?] at henum
    rw [List.any_eq_true] at hinner
    obtain ⟨b, hb, hfb⟩ := hinner
    rw [List.mem_iff_getElem?] at hb
    obtain ⟨n, hn⟩ := hb
    rw [List.getElem?_drop] at hn
    simp only [decide_eq_true_eq, Bool.and_eq_true] at ha hfb
    have hglen := (List.getElem?_eq_some.mp hn).1
    have hda : cs.getD i 0 = a := by
      rw [List.getD_eq_getElem?_getD, henum]; rfl
    have hdb : cs.getD (i + 1 + n) 0 = b := by
      rw [List.getD_eq_getElem?_getD, hn]; rfl
    exact ⟨i, i + 1 + n, by omega, hglen, by rw [hda]; exact ha,
      by rw [hdb]; exact hfb.1, by rw [hda, hdb]; exact hfb.2⟩
  · rintro ⟨i, j, hij, hj, hile, hjle, hsum⟩
    have hi : i < cs.length := lt_trans hij hj
    have hgi : cs[i]? = some (cs.getD i 0) := by
      rw [List.getD_eq_getElem?_getD, List.getElem?_eq_getElem hi]; rfl
    have hgj : cs[j]? = some (cs.getD j 0) := by
      rw [List.getD_eq_getElem?_getD, List.getElem?_eq_getElem hj]; rfl
    refine ⟨(i, cs.getD i 0), ?_, ?_⟩
    · rw [List.mem_filter]
      exact ⟨List.mk_mem_enum_iff_getElem?.mpr hgi, by simpa using hile⟩
    · rw [List.any_eq_true]
      refine ⟨cs.getD j 0, ?_, ?_⟩
      · rw [List.mem_iff_getElem?]
        exact ⟨j - (i + 1), by rw [List.getElem?_drop]; rw [show i + 1 + (j - (i + 1)) = j by omega]; exact hgj⟩
      · simp only [decide_eq_true_eq, Bool.and_eq_true]
        exact ⟨hjle, hsum⟩

/-- In the range of `u128`, the mod-`2^128` sum condition of the validator is
equivalent to a true two-sum: both summands are `≤ t < 2^128`, so a wrapped
sum can never equal `t`. -/
theorem u128_two_sum_eq (a b t : Nat) (ht : t < U128_MOD) (ha : a ≤ t) (hb : b ≤ t) :
    (b + a) % U128_MOD = t ↔ b + a = t := by
  rcases lt_or_le (b + a) U128_MOD with h | h
  · rw [Nat.mod_eq_of_lt h]
  · have h2 : b + a - U128_MOD < t := by omega
    rw [Nat.mod_eq_sub_mod h, Nat.mod_eq_of_lt (by omega)]
    omega

/-- Claim C1 (Window Validator correctness).  For every window of candidate
values and every target `T < 2^128` (a `u128` value), `is_number_valid`
returns `true` iff two distinct positions of the window sum to `T`; in
particular a window holding `0` at one position and `T` at another yields
`true`.  (Skipping candidates greater than `T` is exactly what makes the
left-to-right statement hold: the right-hand side never mentions the skip.) -/
theorem is_number_valid_two_sum_iff (target : Nat) (candidates : List Nat)
    (ht : target < U128_MOD) :
    (is_number_valid target candidates = true ↔
      ∃ i j, i ≠ j ∧ i < candidates.length ∧ j < candidates.length ∧
        candidates.getD i 0 + candidates.getD j 0 = target) ∧
    (∀ i j, i ≠ j → i < candidates.length → j < candidates.length →
      candidates.getD i 0 = 0 → candidates.getD j 0 = target →
      is_number_valid target candidates = true) := by
  have main : is_number_valid target candidates = true ↔
      ∃ i j, i ≠ j ∧ i < candidates.length ∧ j < candidates.length ∧
        candidates.getD i 0 + candidates.getD j 0 = target := by
    rw [is_number_valid_eq_true_iff]
    constructor
    · rintro ⟨i, j, hij, hj, hile, hjle, hsum⟩
      rw [u128_two_sum_eq _ _ _ ht hile hjle] at hsum
      exact ⟨i, j, by omega, by omega, hj, by omega⟩
    · rintro ⟨i, j, hij, hi, hj, hsum⟩
      rcases Nat.lt_or_ge i j with h | h
      · refine ⟨i, j, h, hj, by omega, by omega, ?_⟩
        rw [u128_two_sum_eq _ _ _ ht (by omega) (by omega)]
        omega
      · refine ⟨j, i, by omega, hi, by omega, by omega, ?_⟩
        rw [u128_two_sum_eq _ _ _ ht (by omega) (by omega)]
        omega
  refine ⟨main, fun i j hij hi hj h0 hT => main.mpr ⟨i, j, hij, hi, hj, by omega⟩⟩

/-- Witness for C1 at a concrete window: `2 + 3 = 5`. -/
theorem is_number_valid_two_sum_iff_witness : is_number_valid 5 [2, 3] = true :=
  (is_number_valid_two_sum_iff 5 [2, 3] (by decide)).1.mpr
    ⟨0, 1, by decide, by decide, by decide, by decide⟩

/-! ## Concrete evaluations: segment-boundary bug, counterexamples -/

/-- Claim C2 (scan equivalence fails on the code).  On the file
`"1\n2\n3\n4\n50\n"`, scanning with parallelism `1` yields the anomaly list
`[50]`, but scanning the two segments produced by `get_bounds` with
parallelism `2` yields `[50, 50]`: when fewer than `W` delimiters follow a
split point the overflow bound falls back to the end of file, the two
segments overlap, and the last number is validated and reported by both
segments.  The two multisets differ, refuting the claimed equivalence. -/
theorem scan_equivalence_failing_eval :
    fullScan bufA 2 = some [50, 50] ∧ fullScan bufA 1 = some [50] ∧
    Multiset.ofList [50, 50] ≠ Multiset.ofList [50] :=
  ⟨by decide, by decide, by decide⟩

/-- Claim C3, counterexample.  On the same file with parallelism `2` the nominal
ranges are `[(0, 4), (6, 9)]`: byte `5` (a delimiter byte) lies in `[0, L)`
but in neither range, so the nominal ranges do not cover every byte of
`[0, L)`. -/
theorem nominal_coverage_counterexample :
    get_bounds_nominal bufA 2 = [(0, 4), (6, 9)] ∧ (5 : Nat) < bufA.length ∧
    ∀ r ∈ get_bounds_nominal bufA 2, ¬(r.1 ≤ 5 ∧ 5 ≤ r.2) := by decide

/-- Claim C4, counterexample.  On a file of 102 lines `"1\n"` the split point
`0` is followed by at least `W = 100` delimiters, yet the overlap extension
`(right_bound, right_bound_overflow]` contains exactly `99 = W - 1` complete
numbers, not `W`: the extension runs from the 1st to the 100th delimiter. -/
theorem overlap_extension_counterexample :
    ITEM_RANGE_SIZE ≤ (delimIdxs (bufB.drop 0)).length ∧
    extensionNumbers bufB 0 = 99 ∧ extensionNumbers bufB 0 ≠ ITEM_RANGE_SIZE := by
  refine ⟨by decide, by decide, by decide⟩

/-- Claim C5, counterexample.  On the two-number segment `"1\n0"` the final
number `0` has exactly one available predecessor, `1`, and
`is_number_valid 0 [1] = false`, so validating it against exactly its
available predecessors would report it; but the scanner validates it against
the zero-padded full-width window (`0 + 0 = 0` holds there), and the scan
reports nothing. -/
theorem short_window_counterexample :
    processSegResult [49, SPLIT_MARKER, 48] = some [] ∧
    is_number_valid 0 [1] = false := by decide

/-- Claim C6, counterexample.  The byte run `"+1"` contains a byte that is not
an ASCII digit (the sign byte `43`), yet the parser returns a value
(`u128::from_str` accepts an optional leading `'+'`). -/
theorem parser_sign_counterexample :
    parse_number_from_str_buffer [43, 49] = some 1 ∧
    ¬(∀ b ∈ [43, 49], 48 ≤ b ∧ b ≤ 57) := by decide

/-- Claim C7, counterexample.  On the buffer `"0\n00"` (length 4, margin-adjusted
end `L - 2 = 2`) the split point `0` is followed by fewer than `W` delimiters,
but `get_right_bounds` returns `(0, 2)`: only `right_bound_overflow` falls
back to `L - 2`; `right_bound` is the position just before the first
delimiter, not `L - 2`. -/
theorem last_segment_bounds_counterexample :
    (delimIdxs (([48, 10, 48, 48] : List Nat).drop 0)).length < ITEM_RANGE_SIZE ∧
    get_right_bounds [48, 10, 48, 48] 0 = (0, 2) ∧
    (0 : Nat) ≠ ([48, 10, 48, 48] : List Nat).length - MARGIN_AVOID_LINE_BREAK := by decide

/-- Claim C8, counterexample.  On the two-number segment `"5\n5"` the
evict-and-validate step (`process_next_number`) runs once, at fill level `1`,
far below the full capacity `NUMBERS_BUFFER_SIZE = 101`: the end-of-walk step
evicts unconditionally even when the buffer is not full. -/
theorem evict_below_capacity_counterexample :
    segEvictLog [53, SPLIT_MARKER, 53] = [1] ∧ (1 : Nat) ≠ NUMBERS_BUFFER_SIZE := by decide

/-! ## Characterisation of `get_right_bounds` by delimiter positions -/

/-- Once 100 delimiters are counted the loop returns its accumulators. -/
theorem grbLoop_stop (rest : List Nat) : ∀ idx cnt rb rbo, 100 ≤ cnt →
    grbLoop rest idx cnt rb rbo = (rb, rbo) := by
  induction rest with
  | nil => intro idx cnt rb rbo _; rfl
  | cons b tl ih =>
    intro idx cnt rb rbo h
    unfold grbLoop
    rw [if_pos h]

/-- Once at least one delimiter is counted, `right_bound` is frozen. -/
theorem grbLoop_fst_frozen (rest : List Nat) : ∀ idx cnt rb rbo, 1 ≤ cnt →
    (grbLoop rest idx cnt rb rbo).1 = rb := by
  induction rest with
  | nil => intro idx cnt rb rbo _; rfl
  | cons b tl ih =>
    intro idx cnt rb rbo h
    unfold grbLoop
    by_cases h100 : 100 ≤ cnt
    · rw [if_pos h100]
    · rw [if_neg h100]
      by_cases hb : b = SPLIT_MARKER
      · rw [if_pos hb]
        simp only
        rw [if_neg (by omega : ¬cnt + 1 = 1)]
        exact ih (idx + 1) (cnt + 1) rb _ (by omega)
      · rw [if_neg hb]
        exact ih (idx + 1) cnt rb rbo h

/-- If the remaining bytes contain no delimiter, `right_bound` is frozen. -/
theorem grbLoop_fst_of_no_delim (rest : List Nat) : ∀ idx cnt rb rbo,
    kthDelim rest 1 = none → (grbLoop rest idx cnt rb rbo).1 = rb := by
  induction rest with
  | nil => intro idx cnt rb rbo _; rfl
  | cons b tl ih =>
    intro idx cnt rb rbo h
    unfold kthDelim at h
    unfold grbLoop
    by_cases h100 : 100 ≤ cnt
    · rw [if_pos h100]
    · rw [if_neg h100]
      by_cases hb : b = SPLIT_MARKER
      · rw [if_pos hb] at h
        rw [if_pos (by omega : (1 : Nat) ≤ 1)] at h
        exact absurd h (by simp)
      · rw [if_neg hb] at h
        rw [if_neg hb]
        exact ih (idx + 1) cnt rb rbo (by simpa using h)

/-- The first delimiter at relative position `j` fixes
`right_bound = idx + j - 1`. -/
theorem grbLoop_fst_of_first (rest : List Nat) : ∀ idx rb rbo j,
    kthDelim rest 1 = some j →
    (grbLoop rest idx 0 rb rbo).1 = idx + j - 1 := by
  induction rest with
  | nil => intro idx rb rbo j h; exact absurd h (by simp [kthDelim])
  | cons b tl ih =>
    intro idx rb rbo j h
    unfold kthDelim at h
    unfold grbLoop
    rw [if_neg (by omega : ¬(100:Nat) ≤ 0)]
    by_cases hb : b = SPLIT_MARKER
    · rw [if_pos hb] at h
      rw [if_pos (by omega : (1:Nat) ≤ 1)] at h
      rw [if_pos hb]
      simp only
      rw [if_true]
      rw [grbLoop_fst_frozen tl (idx + 1) (0 + 1) _ _ (by omega)]
      simp only [Option.some.injEq] at h
      omega
    · rw [if_neg hb] at h
      rw [if_neg hb]
      rcases Option.map_eq_some'.mp h with ⟨j', hj', rfl⟩
      rw [ih (idx + 1) rb rbo j' hj']
      omega

/-- If fewer than `100 - cnt` delimiters remain, `right_bound_overflow` is
frozen. -/
theorem grbLoop_snd_frozen (rest : List Nat) : ∀ idx cnt rb rbo, cnt < 100 →
    kthDelim rest (100 - cnt) = none →
    (grbLoop rest idx cnt rb rbo).2 = rbo := by
  induction rest with
  | nil => intro idx cnt rb rbo _ _; rfl
  | cons b tl ih =>
    intro idx cnt rb rbo hcnt h
    unfold kthDelim at h
    unfold grbLoop
    rw [if_neg (by omega)]
    by_cases hb : b = SPLIT_MARKER
    · rw [if_pos hb] at h
      rw [if_pos hb]
      simp only
      by_cases h1 : (100 - cnt : Nat) ≤ 1
      · rw [if_pos h1] at h
        exact absurd h (by simp)
      · rw [if_neg h1] at h
        have h2 : kthDelim tl (100 - (cnt + 1)) = none := by
          rcases Option.map_eq_none'.mp h with h'
          rw [show (100 : Nat) - (cnt + 1) = 100 - cnt - 1 by omega]
          exact h'
        rw [if_neg (by omega : ¬cnt + 1 = 100)]
        exact ih (idx + 1) (cnt + 1) _ rbo (by omega) h2
    · rw [if_neg hb] at h
      rw [if_neg hb]
      exact ih (idx + 1) cnt rb rbo hcnt (by simpa using h)

/-- The `(100 - cnt)`-th remaining delimiter at relative position `j` fixes
`right_bound_overflow = idx + j - 1`. -/
theorem grbLoop_snd_of_kth (rest : List Nat) : ∀ idx cnt rb rbo j, cnt < 100 →
    kthDelim rest (100 - cnt) = some j →
    (grbLoop rest idx cnt rb rbo).2 = idx + j - 1 := by
  induction rest with
  | nil => intro idx cnt rb rbo j _ h; exact absurd h (by simp [kthDelim])
  | cons b tl ih =>
    intro idx cnt rb rbo j hcnt h
    unfold kthDelim at h
    unfold grbLoop
    rw [if_neg (by omega)]
    by_cases hb : b = SPLIT_MARKER
    · rw [if_pos hb] at h
      rw [if_pos hb]
      simp only
      by_cases h1 : (100 - cnt : Nat) ≤ 1
      · rw [if_pos h1] at h
        simp only [Option.some.injEq] at h
        have hc99 : cnt = 99 := by omega
        subst hc99
        rw [if_pos rfl]
        rw [(grbLoop_stop tl (idx + 1) 100 _ _ (by omega))]
        omega
      · rw [if_neg h1] at h
        rcases Option.map_eq_some'.mp h with ⟨j', hj', rfl⟩
        have h2 : kthDelim tl (100 - (cnt + 1)) = some j' := by
          rw [show (100 : Nat) - (cnt + 1) = 100 - cnt - 1 by omega]
          exact hj'
        rw [if_neg (by omega : ¬cnt + 1 = 100)]
        rw [ih (idx + 1) (cnt + 1) _ rbo j' (by omega) h2]
        omega
    · rw [if_neg hb] at h
      rw [if_neg hb]
      rcases Option.map_eq_some'.mp h with ⟨j', hj', rfl⟩
      rw [ih (idx + 1) cnt rb rbo j' hcnt hj']
      omega

/-- The function `kthDelim` is the `(k-1)`-st entry of the delimiter-position list. -/
theorem kthDelim_eq_delimIdxs (rest : List Nat) : ∀ k, 1 ≤ k →
    kthDelim rest k = (delimIdxs rest)[k - 1]? := by
  induction rest with
  | nil => intro k hk; simp [kthDelim, delimIdxs]
  | cons b tl ih =>
    intro k hk
    unfold kthDelim delimIdxs
    by_cases hb : b = SPLIT_MARKER
    · rw [if_pos hb, if_pos hb]
      by_cases h1 : k ≤ 1
      · have hk1 : k = 1 := by omega
        subst hk1
        simp
      · rw [if_neg h1]
        rw [ih (k - 1) (by omega)]
        rw [show k - 1 = (k - 2) + 1 by omega]
        simp only [List.getElem?_cons_succ, List.getElem?_map]
        rw [show k - 2 + 1 - 1 = k - 2 by omega]
    · rw [if_neg hb, if_neg hb]
      rw [ih k hk]
      simp only [List.getElem?_map]

/-- Membership in `delimIdxs` characterises the delimiter bytes. -/
theorem mem_delimIdxs (rest : List Nat) : ∀ i, i ∈ delimIdxs rest ↔ rest[i]? = some SPLIT_MARKER := by
  induction rest with
  | nil => intro i; simp [delimIdxs]
  | cons b tl ih =>
    intro i
    unfold delimIdxs
    by_cases hb : b = SPLIT_MARKER
    · rw [if_pos hb]
      cases i with
      | zero => simp [hb]
      | succ n =>
        simp only [List.mem_cons, List.mem_map, List.getElem?_cons_succ]
        rw [← ih n]
        constructor
        · rintro (h | ⟨y, hy, hyn⟩)
          · omega
          · have : y = n := by omega
            subst this; exact hy
        · intro h; exact Or.inr ⟨n, h, rfl⟩
    · rw [if_neg hb]
      cases i with
      | zero =>
        simp only [List.mem_map, List.getElem?_cons_zero]
        constructor
        · rintro ⟨y, _, hy⟩; omega
        · intro h; exact absurd (Option.some.injEq _ _ ▸ h) (by simpa using hb)
      | succ n =>
        simp only [List.mem_map, List.getElem?_cons_succ]
        rw [← ih n]
        constructor
        · rintro ⟨y, hy, hyn⟩
          have : y = n := by omega
          subst this; exact hy
        · intro h; exact ⟨n, h, rfl⟩

/-- The delimiter positions are strictly increasing. -/
theorem delimIdxs_sorted (rest : List Nat) : (delimIdxs rest).Pairwise (· < ·) := by
  induction rest with
  | nil => simp [delimIdxs]
  | cons b tl ih =>
    unfold delimIdxs
    by_cases hb : b = SPLIT_MARKER
    · rw [if_pos hb]
      refine List.Pairwise.cons ?_ ?_
      · intro x hx
        rcases List.mem_map.mp hx with ⟨y, _, rfl⟩
        omega
      · exact List.pairwise_map.mpr (ih.imp (by intro a c h; omega))
    · rw [if_neg hb]
      exact List.pairwise_map.mpr (ih.imp (by intro a c h; omega))

/-- The function `kthDelim` runs out exactly when fewer than `k` delimiters remain. -/
theorem kthDelim_eq_none_iff (rest : List Nat) (k : Nat) (hk : 1 ≤ k) :
    kthDelim rest k = none ↔ (delimIdxs rest).length < k := by
  rw [kthDelim_eq_delimIdxs rest k hk, List.getElem?_eq_none_iff]
  omega

/-- Value of `right_bound` when a delimiter follows the split point. -/
theorem grb_fst_of_first (buf : List Nat) (p j : Nat)
    (h : kthDelim (buf.drop p) 1 = some j) :
    (get_right_bounds buf p).1 = p + j - 1 :=
  grbLoop_fst_of_first _ p _ _ j h

/-- Value of `right_bound` when no delimiter follows the split point. -/
theorem grb_fst_of_no_delim (buf : List Nat) (p : Nat)
    (h : kthDelim (buf.drop p) 1 = none) :
    (get_right_bounds buf p).1 = buf.length - MARGIN_AVOID_LINE_BREAK :=
  grbLoop_fst_of_no_delim _ p 0 _ _ h

/-- Value of `right_bound_overflow` when at least 100 delimiters follow. -/
theorem grb_snd_of_100th (buf : List Nat) (p j : Nat)
    (h : kthDelim (buf.drop p) 100 = some j) :
    (get_right_bounds buf p).2 = p + j - 1 :=
  grbLoop_snd_of_kth _ p 0 _ _ j (by omega) (by simpa using h)

/-- Value of `right_bound_overflow` when fewer than 100 delimiters follow. -/
theorem grb_snd_of_lt100 (buf : List Nat) (p : Nat)
    (h : kthDelim (buf.drop p) 100 = none) :
    (get_right_bounds buf p).2 = buf.length - MARGIN_AVOID_LINE_BREAK :=
  grbLoop_snd_frozen _ p 0 _ _ (by omega) (by simpa using h)

/-- Claim C7 amended (last-segment bounds).  When fewer than `W = 100`
delimiters remain at or after the split point, `right_bound_overflow` falls
back to `L - 2` (the margin-adjusted end of file); but `right_bound` falls
back to `L - 2` only when *no* delimiter remains at all — otherwise it is the
position just before the first remaining delimiter. -/
theorem last_segment_bounds_amended (buf : List Nat) (p : Nat)
    (h : c7Hyps buf p = true) :
    (get_right_bounds buf p).2 = buf.length - MARGIN_AVOID_LINE_BREAK ∧
    (delimIdxs (buf.drop p) = [] →
      (get_right_bounds buf p).1 = buf.length - MARGIN_AVOID_LINE_BREAK) ∧
    (∀ j, (delimIdxs (buf.drop p))[0]? = some j →
      (get_right_bounds buf p).1 = p + j - 1) := by
  unfold c7Hyps at h
  simp only [Bool.and_eq_true, decide_eq_true_eq] at h
  obtain ⟨⟨hlen, _⟩, _⟩ := h
  refine ⟨?_, ?_, ?_⟩
  · apply grb_snd_of_lt100
    rw [kthDelim_eq_none_iff _ 100 (by omega)]
    simpa [ITEM_RANGE_SIZE] using hlen
  · intro hD
    apply grb_fst_of_no_delim
    rw [kthDelim_eq_delimIdxs _ 1 (by omega), hD]
    rfl
  · intro j hj
    apply grb_fst_of_first
    rw [kthDelim_eq_delimIdxs _ 1 (by omega)]
    exact hj

/-- Witness for the amended C7 on the buffer `"0\n00"`. -/
theorem last_segment_bounds_amended_witness :
    (get_right_bounds [48, 10, 48, 48] 0).2 = 2 ∧
    (get_right_bounds [48, 10, 48, 48] 0).1 = 0 := by
  have h := last_segment_bounds_amended [48, 10, 48, 48] 0 (by decide)
  refine ⟨by simpa [MARGIN_AVOID_LINE_BREAK] using h.1, ?_⟩
  have h2 := h.2.2 1 (by decide)
  simpa using h2

/-- In a strictly increasing list, the entries `≤` the `k`-th entry are
exactly the first `k + 1` entries. -/
theorem sorted_filter_le_length (l : List Nat) (hs : l.Pairwise (· < ·)) :
    ∀ k t, l[k]? = some t → (l.filter (fun x => decide (x ≤ t))).length = k + 1 := by
  induction l with
  | nil => intro k t h; simp at h
  | cons a tl ih =>
    intro k t h
    have hhead : ∀ x ∈ tl, a < x := fun x hx => (List.pairwise_cons.mp hs).1 x hx
    have htail : tl.Pairwise (· < ·) := (List.pairwise_cons.mp hs).2
    cases k with
    | zero =>
      simp only [List.getElem?_cons_zero, Option.some.injEq] at h
      subst h
      rw [List.filter_cons_of_pos (by simp)]
      rw [List.filter_eq_nil_iff.mpr (fun x hx => by
        have := hhead x hx
        simp only [decide_eq_true_eq]
        omega)]
      rfl
    | succ n =>
      simp only [List.getElem?_cons_succ] at h
      have htmem : t ∈ tl := List.getElem?_mem h
      rw [List.filter_cons_of_pos (by
        have := hhead t htmem
        simp only [decide_eq_true_eq]
        omega)]
      simp only [List.length_cons]
      rw [ih htail n t h]

/-- Claim C4 amended (overlap extension).  When at least `W = 100` delimiters
follow the split point, the bounds are the positions just before the 1st and
the 100th such delimiter, and the overlap extension
`(right_bound, right_bound_overflow]` contains exactly `W - 1 = 99` complete
additional numbers (those terminated by the 2nd through 100th delimiters) —
one fewer than the window size. -/
theorem overlap_extension_amended (buf : List Nat) (p : Nat)
    (h : c4Hyps buf p = true) :
    (∀ j, (delimIdxs (buf.drop p))[0]? = some j →
        (get_right_bounds buf p).1 = p + j - 1) ∧
    (∀ j, (delimIdxs (buf.drop p))[99]? = some j →
        (get_right_bounds buf p).2 = p + j - 1) ∧
    extensionNumbers buf p = ITEM_RANGE_SIZE - 1 := by
  unfold c4Hyps at h
  simp only [Bool.and_eq_true, decide_eq_true_eq] at h
  obtain ⟨hlen, hmatch⟩ := h
  have hfst : ∀ j, (delimIdxs (buf.drop p))[0]? = some j →
      (get_right_bounds buf p).1 = p + j - 1 := by
    intro j hj
    apply grb_fst_of_first
    rw [kthDelim_eq_delimIdxs _ 1 (by omega)]
    exact hj
  have hsnd : ∀ j, (delimIdxs (buf.drop p))[99]? = some j →
      (get_right_bounds buf p).2 = p + j - 1 := by
    intro j hj
    apply grb_snd_of_100th
    rw [kthDelim_eq_delimIdxs _ 100 (by omega)]
    exact hj
  refine ⟨hfst, hsnd, ?_⟩
  have hlen' : 100 ≤ (delimIdxs (buf.drop p)).length := by
    simpa [ITEM_RANGE_SIZE] using hlen
  obtain ⟨a, tl, hD⟩ : ∃ a tl, delimIdxs (buf.drop p) = a :: tl := by
    cases hcase : delimIdxs (buf.drop p) with
    | nil => rw [hcase] at hlen'; simp at hlen'
    | cons a tl => exact ⟨a, tl, rfl⟩
  have hj1 : (delimIdxs (buf.drop p))[0]? = some a := by rw [hD]; simp
  have hlentl : 99 ≤ tl.length := by
    have hlc := congrArg List.length hD
    simp only [List.length_cons] at hlc
    omega
  obtain ⟨j100, hj100tl⟩ : ∃ j, tl[98]? = some j := by
    rw [List.getElem?_eq_getElem (by omega)]
    exact ⟨_, rfl⟩
  have hj100 : (delimIdxs (buf.drop p))[99]? = some j100 := by
    rw [hD]
    simpa using hj100tl
  rw [hj1] at hmatch
  have hp1 : 1 ≤ p + a := by simpa using hmatch
  have hsort' : (a :: tl).Pairwise (· < ·) := hD ▸ delimIdxs_sorted (buf.drop p)
  have hhead : ∀ x ∈ tl, a < x := fun x hx => (List.pairwise_cons.mp hsort').1 x hx
  have haj : a < j100 := hhead j100 (List.getElem?_mem hj100tl)
  unfold extensionNumbers
  rw [hfst a hj1, hsnd j100 hj100]
  have hfe : (delimIdxs (buf.drop p)).filter
        (fun j => decide (p + a - 1 + 1 < p + j) && decide (p + j ≤ p + j100 - 1 + 1))
      = (delimIdxs (buf.drop p)).filter (fun j => decide (a < j) && decide (j ≤ j100)) :=
    List.filter_congr (fun x _ => by
      have e1 : decide (p + a - 1 + 1 < p + x) = decide (a < x) :=
        decide_eq_decide.mpr (by omega)
      have e2 : decide (p + x ≤ p + j100 - 1 + 1) = decide (x ≤ j100) :=
        decide_eq_decide.mpr (by omega)
      simp only [e1, e2])
  rw [hfe, hD]
  rw [List.filter_cons_of_neg (by simp)]
  have hfe2 : tl.filter (fun j => decide (a < j) && decide (j ≤ j100))
      = tl.filter (fun j => decide (j ≤ j100)) :=
    List.filter_congr (fun x hx => by
      rw [decide_eq_true (hhead x hx), Bool.true_and])
  rw [hfe2]
  rw [sorted_filter_le_length tl (List.pairwise_cons.mp hsort').2 98 j100 hj100tl]
  decide

/-- Witness for the amended C4 on the 102-line file `"1\n" * 102`: the first
delimiter is at byte 1, the 100th at byte 199, and the extension adds 99
numbers. -/
theorem overlap_extension_amended_witness :
    (get_right_bounds bufB 0).1 = 0 ∧ (get_right_bounds bufB 0).2 = 198 ∧
    extensionNumbers bufB 0 = 99 := by
  have h := overlap_extension_amended bufB 0 (by decide)
  refine ⟨?_, ?_, ?_⟩
  · have h1 := h.1 1 (by decide)
    simpa using h1
  · have h2 := h.2.1 199 (by decide)
    simpa using h2
  · have h3 := h.2.2
    simpa [ITEM_RANGE_SIZE] using h3

/-! ## Closed form of the partitioner loop -/

/-- If a delimiter sits at position `j` and no delimiter precedes it, then it
is the first delimiter. -/
theorem kthDelim_one_eq_some (rest : List Nat) (j : Nat)
    (hj : rest[j]? = some SPLIT_MARKER)
    (hmin : ∀ i, i < j → ¬ rest[i]? = some SPLIT_MARKER) :
    kthDelim rest 1 = some j := by
  have hjD : j ∈ delimIdxs rest := (mem_delimIdxs rest j).mpr hj
  cases hcase : delimIdxs rest with
  | nil => rw [hcase] at hjD; simp at hjD
  | cons x t =>
    rw [kthDelim_eq_delimIdxs _ 1 (by omega), hcase]
    have hsort := delimIdxs_sorted rest
    rw [hcase] at hsort
    have hxmem : x ∈ delimIdxs rest := by rw [hcase]; exact List.mem_cons_self x t
    have hxge : ¬ x < j := fun hlt => hmin x hlt ((mem_delimIdxs rest x).mp hxmem)
    have hxj : x = j := by
      rw [hcase] at hjD
      rcases List.mem_cons.mp hjD with hh | hh
      · omega
      · have := (List.pairwise_cons.mp hsort).1 j hh
        omega
    subst hxj
    simp

/-- Closed form of `gbLoop`: the `j`-th produced triple is determined by the
`right_bound`s of the split points `(k + j - 1) * c` and `(k + j) * c`. -/
theorem gbLoop_closed (buf : List Nat) (c : Nat) : ∀ rem k pl,
    gbLoop buf c pl k rem = (List.range rem).map (fun j =>
      ((if j = 0 then pl
        else (get_right_bounds buf ((k + j - 1) * c)).1 + MARGIN_AVOID_LINE_BREAK),
       (get_right_bounds buf ((k + j) * c)).1,
       (get_right_bounds buf ((k + j) * c)).2)) := by
  intro rem
  induction rem with
  | zero => intro k pl; rfl
  | succ n ih =>
    intro k pl
    rw [List.range_succ_eq_map]
    unfold gbLoop
    simp only [List.map_cons, List.map_map]
    refine congrArg₂ _ ?_ ?_
    · simp
    · rw [ih (k + 1) ((get_right_bounds buf (k * c)).1 + MARGIN_AVOID_LINE_BREAK)]
      refine List.map_eq_map_iff.mpr ?_
      intro j _
      simp only [Function.comp_apply, Nat.succ_eq_add_one]
      rw [if_neg (by omega : ¬ j + 1 = 0)]
      cases j with
      | zero =>
        rw [if_pos rfl]
        have e1 : k + 1 - 1 = k := by omega
        have e2 : k + 1 + 0 = k + (0 + 1) := by omega
        rw [e1, e2]
      | succ m =>
        rw [if_neg (by omega : ¬ m + 1 = 0)]
        have e1 : k + 1 + (m + 1) - 1 = k + (m + 1 + 1) - 1 := by omega
        have e2 : k + 1 + (m + 1) = k + (m + 1 + 1) := by omega
        rw [e1, e2]

/-- Closed form of the nominal ranges: the `j`-th nominal range runs from one
past the `j`-th chunk-closing delimiter (or from 0) up to one before the
`(j+1)`-st chunk-closing delimiter. -/
theorem get_bounds_nominal_closed (buf : List Nat) (P : Nat) :
    get_bounds_nominal buf P = (List.range P).map (fun j =>
      ((if j = 0 then 0 else splitDelim buf P j + 1), splitDelim buf P (j + 1) - 1)) := by
  unfold get_bounds_nominal
  rw [gbLoop_closed buf (buf.length / P) P 1 0]
  rw [List.map_map]
  refine List.map_eq_map_iff.mpr ?_
  intro j _
  simp only [Function.comp_apply]
  unfold splitDelim
  by_cases hj0 : j = 0
  · subst hj0
    simp
  · rw [if_neg hj0, if_neg hj0]
    have e1 : 1 + j - 1 = j := by omega
    have e2 : 1 + j = j + 1 := by omega
    rw [e1, e2]
    refine congrArg₂ _ ?_ ?_
    · show _ + MARGIN_AVOID_LINE_BREAK = _ + 1 + 1
      unfold MARGIN_AVOID_LINE_BREAK
      omega
    · omega

/-- Under the well-formed-input hypotheses the chunk-closing delimiters are
genuine delimiter bytes, strictly increase, and the last one is the final
byte of the buffer. -/
theorem splitDelim_facts (buf : List Nat) (P : Nat) (h : c3Hyps buf P = true) :
    (∀ i, 1 ≤ i → i ≤ P → buf[splitDelim buf P i]? = some SPLIT_MARKER) ∧
    (∀ i, 1 ≤ i → i < P → splitDelim buf P i < splitDelim buf P (i + 1)) := by
  unfold c3Hyps at h
  simp only [Bool.and_eq_true, decide_eq_true_eq, List.all_eq_true] at h
  obtain ⟨⟨⟨⟨⟨hP1, hPL⟩, hL2⟩, hlast⟩, hchunk⟩, hlastchunk⟩ := h
  have hc1 : 1 ≤ buf.length / P := (Nat.one_le_div_iff (by omega)).mpr hPL
  have hPcL : P * (buf.length / P) ≤ buf.length := by
    have hdm := Nat.div_mul_le_self buf.length P
    have hcomm : P * (buf.length / P) = buf.length / P * P := Nat.mul_comm _ _
    omega
  -- the internal chunk-closing delimiters
  have key : ∀ i, 1 ≤ i → i < P →
      buf[splitDelim buf P i]? = some SPLIT_MARKER ∧
      splitDelim buf P i + 1 < (i + 1) * (buf.length / P) ∧
      i * (buf.length / P) ≤ splitDelim buf P i := by
    intro i h1 hiP
    have hic : 1 ≤ i * (buf.length / P) := by
      calc 1 = 1 * 1 := by omega
      _ ≤ i * (buf.length / P) := Nat.mul_le_mul h1 hc1
    have hci := hchunk i (List.mem_range.mpr hiP)
    rw [if_pos h1] at hci
    cases hk : kthDelim (buf.drop (i * (buf.length / P))) 1 with
    | none => rw [hk] at hci; exact absurd hci (by simp)
    | some j =>
      rw [hk] at hci
      simp only [decide_eq_true_eq] at hci
      have hR := grb_fst_of_first buf (i * (buf.length / P)) j hk
      have hsd : splitDelim buf P i = i * (buf.length / P) + j := by
        unfold splitDelim
        rw [hR]
        omega
      have hjD : j ∈ delimIdxs (buf.drop (i * (buf.length / P))) := by
        rw [kthDelim_eq_delimIdxs _ 1 (by omega)] at hk
        exact List.getElem?_mem hk
      have hdel : buf[i * (buf.length / P) + j]? = some SPLIT_MARKER := by
        have hmem := (mem_delimIdxs _ j).mp hjD
        rw [List.getElem?_drop] at hmem
        exact hmem
      exact ⟨by rw [hsd]; exact hdel, by omega, by omega⟩
  -- the final chunk-closing delimiter is the last byte
  have hlastd : splitDelim buf P P = buf.length - 1 := by
    rcases Nat.eq_or_lt_of_le hPcL with hceq | hclt
    · have hdrop : buf.drop (P * (buf.length / P)) = [] := by
        rw [hceq, List.drop_length]
      have hnone : kthDelim (buf.drop (P * (buf.length / P))) 1 = none := by
        rw [hdrop]; rfl
      have hR := grb_fst_of_no_delim buf (P * (buf.length / P)) hnone
      unfold splitDelim
      rw [hR]
      unfold MARGIN_AVOID_LINE_BREAK
      omega
    · have hPc1 : P * (buf.length / P) ≤ buf.length - 1 := by omega
      have hfirst : kthDelim (buf.drop (P * (buf.length / P))) 1
          = some (buf.length - 1 - P * (buf.length / P)) := by
        apply kthDelim_one_eq_some
        · rw [List.getElem?_drop]
          rw [show P * (buf.length / P) + (buf.length - 1 - P * (buf.length / P))
              = buf.length - 1 by omega]
          exact hlast
        · intro i hi
          rw [List.getElem?_drop]
          have hx := hlastchunk (P * (buf.length / P) + i)
            (List.mem_range.mpr (by omega))
          rw [if_pos (by omega)] at hx
          simpa using hx
      have hR := grb_fst_of_first buf (P * (buf.length / P)) _ hfirst
      unfold splitDelim
      rw [hR]
      omega
  refine ⟨?_, ?_⟩
  · intro i h1 hiP
    rcases Nat.eq_or_lt_of_le hiP with rfl | hlt
    · rw [hlastd]
      exact hlast
    · exact (key i h1 hlt).1
  · intro i h1 hiP
    have k1 := key i h1 hiP
    rcases Nat.eq_or_lt_of_le (by omega : i + 1 ≤ P) with heq | hlt
    · rw [heq, hlastd]
      have := k1.2.1
      rw [heq] at this
      omega
    · have k2 := key (i + 1) (by omega) hlt
      have := k1.2.1
      have := k2.2.2
      omega

/-- Claim C3 amended (partition coverage).  Under well-formed-input hypotheses
(`c3Hyps`), the `P` nominal `[left, right_bound]` ranges are pairwise
disjoint, every boundary abuts a delimiter byte, and their union covers every
byte of `[0, L)` exactly once **except** the `P` delimiter bytes sitting
immediately after each nominal right bound (the last of which is the final
byte `L - 1`): those delimiter bytes, and only those, are covered by no
range.  The claim's "covers every byte, including delimiter bytes" is false;
boundary delimiters and the trailing margin byte are skipped. -/
theorem nominal_coverage_amended (buf : List Nat) (P : Nat)
    (h : c3Hyps buf P = true) :
    (get_bounds_nominal buf P).length = P ∧
    List.Pairwise (fun r s => r.2 < s.1) (get_bounds_nominal buf P) ∧
    (∀ r ∈ get_bounds_nominal buf P,
      buf[r.2 + 1]? = some SPLIT_MARKER ∧
      (r.1 = 0 ∨ buf[r.1 - 1]? = some SPLIT_MARKER)) ∧
    (∀ b, b < buf.length →
      ((∃ r ∈ get_bounds_nominal buf P, r.1 ≤ b ∧ b ≤ r.2) ↔
        ¬ b ∈ (get_bounds_nominal buf P).map (fun r => r.2 + 1))) := by
  have hbits : 1 ≤ P ∧ P ≤ buf.length ∧ 2 ≤ buf.length ∧
      buf[buf.length - 1]? = some SPLIT_MARKER ∧
      splitDelim buf P P = buf.length - 1 := by
    have h' := h
    unfold c3Hyps at h'
    simp only [Bool.and_eq_true, decide_eq_true_eq, List.all_eq_true] at h'
    obtain ⟨⟨⟨⟨⟨hP1, hPL⟩, hL2⟩, hlast⟩, hchunk⟩, hlastchunk⟩ := h'
    refine ⟨hP1, hPL, hL2, hlast, ?_⟩
    -- re-derive the last-delimiter location exactly as in `splitDelim_facts`
    have hc1 : 1 ≤ buf.length / P := (Nat.one_le_div_iff (by omega)).mpr hPL
    have hPcL : P * (buf.length / P) ≤ buf.length := by
      have hdm := Nat.div_mul_le_self buf.length P
      have hcomm : P * (buf.length / P) = buf.length / P * P := Nat.mul_comm _ _
      omega
    rcases Nat.eq_or_lt_of_le hPcL with hceq | hclt
    · have hdrop : buf.drop (P * (buf.length / P)) = [] := by
        rw [hceq, List.drop_length]
      have hnone : kthDelim (buf.drop (P * (buf.length / P))) 1 = none := by
        rw [hdrop]; rfl
      have hR := grb_fst_of_no_delim buf (P * (buf.length / P)) hnone
      unfold splitDelim
      rw [hR]
      unfold MARGIN_AVOID_LINE_BREAK
      omega
    · have hPc1 : P * (buf.length / P) ≤ buf.length - 1 := by omega
      have hfirst : kthDelim (buf.drop (P * (buf.length / P))) 1
          = some (buf.length - 1 - P * (buf.length / P)) := by
        apply kthDelim_one_eq_some
        · rw [List.getElem?_drop]
          rw [show P * (buf.length / P) + (buf.length - 1 - P * (buf.length / P))
              = buf.length - 1 by omega]
          exact hlast
        · intro i hi
          rw [List.getElem?_drop]
          have hx := hlastchunk (P * (buf.length / P) + i)
            (List.mem_range.mpr (by omega))
          rw [if_pos (by omega)] at hx
          simpa using hx
      have hR := grb_fst_of_first buf (P * (buf.length / P)) _ hfirst
      unfold splitDelim
      rw [hR]
      omega
  obtain ⟨hP1, hPL, hL2, hlast, hlastd⟩ := hbits
  obtain ⟨hdelim, hstep⟩ := splitDelim_facts buf P h
  have hDpos : ∀ i, 1 ≤ splitDelim buf P i := by
    intro i
    unfold splitDelim
    omega
  -- weak monotonicity on `[1, P]`
  have hmono : ∀ i j, 1 ≤ i → i ≤ j → j ≤ P → splitDelim buf P i ≤ splitDelim buf P j := by
    intro i j h1 hij hjP
    induction j with
    | zero => omega
    | succ n ihn =>
      rcases Nat.eq_or_lt_of_le hij with rfl | hlt
      · exact le_refl _
      · have hin : i ≤ n := by omega
        have h2 := ihn hin (by omega)
        have h3 := hstep n (by omega) (by omega)
        omega
  have hN := get_bounds_nominal_closed buf P
  -- the uncovered bytes are exactly the chunk-closing delimiters
  have hunc : ∀ b', b' ∈ (get_bounds_nominal buf P).map (fun r => r.2 + 1) ↔
      ∃ k, 1 ≤ k ∧ k ≤ P ∧ b' = splitDelim buf P k := by
    intro b'
    rw [hN, List.map_map]
    constructor
    · intro hmem
      rcases List.mem_map.mp hmem with ⟨j, hjmem, hjeq⟩
      have hjP : j < P := List.mem_range.mp hjmem
      refine ⟨j + 1, by omega, by omega, ?_⟩
      simp only [Function.comp_apply] at hjeq
      have := hDpos (j + 1)
      omega
    · rintro ⟨k, hk1, hkP, rfl⟩
      refine List.mem_map.mpr ⟨k - 1, List.mem_range.mpr (by omega), ?_⟩
      simp only [Function.comp_apply]
      have := hDpos k
      rw [show k - 1 + 1 = k by omega]
      omega
  refine ⟨?_, ?_, ?_, ?_⟩
  · rw [hN]
    simp
  · rw [hN]
    refine List.pairwise_iff_getElem.mpr ?_
    intro i j hi hj hij
    simp only [List.length_map, List.length_range] at hi hj
    simp only [List.getElem_map, List.getElem_range]
    rw [if_neg (by omega : ¬ j = 0)]
    have hm := hmono (i + 1) j (by omega) (by omega) (by omega)
    have := hDpos (i + 1)
    omega
  · intro r hr
    rw [hN] at hr
    rcases List.mem_map.mp hr with ⟨j, hjmem, rfl⟩
    have hjP : j < P := List.mem_range.mp hjmem
    have hpos := hDpos (j + 1)
    constructor
    · rw [show splitDelim buf P (j + 1) - 1 + 1 = splitDelim buf P (j + 1) by omega]
      exact hdelim (j + 1) (by omega) (by omega)
    · by_cases hj0 : j = 0
      · subst hj0
        exact Or.inl (by rw [if_pos rfl])
      · refine Or.inr ?_
        rw [if_neg hj0]
        rw [show splitDelim buf P j + 1 - 1 = splitDelim buf P j by omega]
        exact hdelim j (by omega) (by omega)
  · intro b hb
    constructor
    · rintro ⟨r, hr, hl, hrb⟩ hmem
      rcases (hunc b).mp hmem with ⟨k, hk1, hkP, rfl⟩
      rw [hN] at hr
      rcases List.mem_map.mp hr with ⟨j, hjmem, rfl⟩
      have hjP : j < P := List.mem_range.mp hjmem
      simp only at hl hrb
      rcases Nat.lt_or_ge j k with hjk | hjk
      · -- `k ≥ j + 1`: the delimiter lies beyond the right end
        have hm := hmono (j + 1) k (by omega) (by omega) (by omega)
        have := hDpos (j + 1)
        omega
      · -- `k ≤ j`: the delimiter lies before the left end
        have hj1 : 1 ≤ j := by omega
        rw [if_neg (by omega : ¬ j = 0)] at hl
        have hm := hmono k j (by omega) (by omega) (by omega)
        omega
    · intro hmem
      have hne : ∀ k, 1 ≤ k → k ≤ P → b ≠ splitDelim buf P k := by
        intro k hk1 hkP heq
        exact hmem ((hunc b).mpr ⟨k, hk1, hkP, heq⟩)
      have hbP : b ≤ splitDelim buf P P - 1 := by
        have h1 := hne P (by omega) (by omega)
        rw [hlastd] at h1 ⊢
        omega
      have tile : ∀ n, n < P → b ≤ splitDelim buf P (n + 1) - 1 →
          ∃ j, j ≤ n ∧ (if j = 0 then 0 else splitDelim buf P j + 1) ≤ b ∧
            b ≤ splitDelim buf P (j + 1) - 1 := by
        intro n
        induction n with
        | zero =>
          intro _ hble
          exact ⟨0, le_refl 0, by rw [if_pos rfl]; omega, hble⟩
        | succ m ihm =>
          intro hmP hble
          by_cases hcase : b ≤ splitDelim buf P (m + 1) - 1
          · obtain ⟨j, hj, hcov1, hcov2⟩ := ihm (by omega) hcase
            exact ⟨j, by omega, hcov1, hcov2⟩
          · refine ⟨m + 1, le_refl _, ?_, hble⟩
            rw [if_neg (by omega : ¬ m + 1 = 0)]
            have hne1 := hne (m + 1) (by omega) (by omega)
            have hpos := hDpos (m + 1)
            omega
      obtain ⟨j, hjP, hcov1, hcov2⟩ := tile (P - 1) (by omega)
        (by rw [show P - 1 + 1 = P by omega]; exact hbP)
      refine ⟨((if j = 0 then 0 else splitDelim buf P j + 1),
        splitDelim buf P (j + 1) - 1), ?_, hcov1, hcov2⟩
      rw [hN]
      exact List.mem_map.mpr ⟨j, List.mem_range.mpr (by omega), rfl⟩

/-- Witness for the amended C3 on `"1\n2\n3\n4\n50\n"` with parallelism 2:
byte 2 is covered, byte 5 (a boundary delimiter) is uncovered and is exactly
one of the bytes following a nominal right bound. -/
theorem nominal_coverage_amended_witness :
    (∃ r ∈ get_bounds_nominal bufA 2, r.1 ≤ 2 ∧ 2 ≤ r.2) ∧
    ¬ (∃ r ∈ get_bounds_nominal bufA 2, r.1 ≤ 5 ∧ 5 ≤ r.2) ∧
    (5 : Nat) ∈ (get_bounds_nominal bufA 2).map (fun r => r.2 + 1) := by
  have h := nominal_coverage_amended bufA 2 (by decide)
  have hcov := h.2.2.2
  refine ⟨?_, ?_, by decide⟩
  · exact (hcov 2 (by decide)).mpr (by decide)
  · intro hex
    exact (hcov 5 (by decide)).mp hex (by decide)

/-! ## Segment scanner invariants -/

/-- One loop step keeps the fill index within capacity and only logs
evictions at full capacity. -/
theorem processStep_invariant (s s1 : ProcState) (b : Nat)
    (h1 : s.numbers_idx ≤ NUMBERS_BUFFER_SIZE)
    (h2 : ∀ e ∈ s.evictLog, e = NUMBERS_BUFFER_SIZE)
    (hstep : processStep s b = Except.ok s1) :
    s1.numbers_idx ≤ NUMBERS_BUFFER_SIZE ∧ ∀ e ∈ s1.evictLog, e = NUMBERS_BUFFER_SIZE := by
  unfold processStep at hstep
  by_cases hbd : b ≠ SPLIT_MARKER
  · rw [if_pos hbd] at hstep
    by_cases hlen : s.str_buffer.length < STR_U128_LEN
    · rw [if_pos hlen] at hstep
      injection hstep with hs1
      subst hs1
      exact ⟨h1, h2⟩
    · rw [if_neg hlen] at hstep
      exact absurd hstep (by simp)
  · rw [if_neg hbd] at hstep
    cases hp : parse_number_from_str_buffer s.str_buffer with
    | none =>
      rw [hp] at hstep
      exact absurd hstep (by simp)
    | some n =>
      rw [hp] at hstep
      simp only [] at hstep
      by_cases hfull : s.numbers_idx = NUMBERS_BUFFER_SIZE
      · rw [if_pos hfull] at hstep
        injection hstep with hs1
        subst hs1
        refine ⟨h1, ?_⟩
        intro e he
        rcases List.mem_append.mp he with he' | he'
        · exact h2 e he'
        · rw [List.mem_singleton.mp he']
          exact hfull
      · rw [if_neg hfull] at hstep
        injection hstep with hs1
        subst hs1
        exact ⟨by simp only; omega, h2⟩

/-- The byte-loop invariant: the fill index stays within capacity and every
logged eviction happened at full capacity. -/
theorem processLoop_invariant (bs : List Nat) : ∀ s s',
    s.numbers_idx ≤ NUMBERS_BUFFER_SIZE →
    (∀ e ∈ s.evictLog, e = NUMBERS_BUFFER_SIZE) →
    processLoop s bs = Except.ok s' →
    s'.numbers_idx ≤ NUMBERS_BUFFER_SIZE ∧ ∀ e ∈ s'.evictLog, e = NUMBERS_BUFFER_SIZE := by
  induction bs with
  | nil =>
    intro s s' h1 h2 hok
    unfold processLoop at hok
    injection hok with hs
    subst hs
    exact ⟨h1, h2⟩
  | cons b tl ih =>
    intro s s' h1 h2 hok
    unfold processLoop at hok
    cases hstep : processStep s b with
    | error e => rw [hstep] at hok; exact absurd hok (by simp)
    | ok s1 =>
      rw [hstep] at hok
      obtain ⟨g1, g2⟩ := processStep_invariant s s1 b h1 h2 hstep
      exact ih s1 s' g1 g2 hok

/-- Claim C8 amended (sliding-window buffer invariant).  Throughout every
segment scan the fill index never exceeds the capacity
`NUMBERS_BUFFER_SIZE = 101`, and during the byte walk the evict-and-validate
step runs only at full capacity; but the end-of-walk step
(`process_next_number` on the final number) runs unconditionally, so its
eviction — always the last one logged — may happen below full capacity. -/
theorem window_buffer_invariant_amended (seg : List Nat) :
    (∀ pre s, processLoop initState pre = Except.ok s →
      s.numbers_idx ≤ NUMBERS_BUFFER_SIZE ∧ ∀ e ∈ s.evictLog, e = NUMBERS_BUFFER_SIZE) ∧
    (∀ s', processSegFull seg = Except.ok s' →
      s'.numbers_idx ≤ NUMBERS_BUFFER_SIZE ∧
      s'.evictLog ≠ [] ∧
      (∀ e ∈ s'.evictLog.dropLast, e = NUMBERS_BUFFER_SIZE) ∧
      s'.evictLog.getLast? = some s'.numbers_idx) := by
  have hinit1 : initState.numbers_idx ≤ NUMBERS_BUFFER_SIZE := Nat.zero_le _
  have hinit2 : ∀ e ∈ initState.evictLog, e = NUMBERS_BUFFER_SIZE := by
    intro e he
    exact absurd he (by simp [initState])
  constructor
  · intro pre s hok
    exact processLoop_invariant pre initState s hinit1 hinit2 hok
  · intro s' hok
    unfold processSegFull at hok
    cases hloop : processLoop initState seg.reverse with
    | error e => rw [hloop] at hok; exact absurd hok (by simp)
    | ok s =>
      rw [hloop] at hok
      simp only [] at hok
      obtain ⟨g1, g2⟩ := processLoop_invariant seg.reverse initState s hinit1 hinit2 hloop
      unfold processFinish at hok
      cases hp : parse_number_from_str_buffer s.str_buffer with
      | none => rw [hp] at hok; exact absurd hok (by simp)
      | some n =>
        rw [hp] at hok
        simp only [] at hok
        injection hok with hs'
        subst hs'
        refine ⟨g1, by simp, ?_, ?_⟩
        · intro e he
          rw [List.dropLast_concat] at he
          exact g2 e he
        · simp only [List.getLast?_concat]

/-- Witness for the amended C8 on the two-number segment `"5\n5"`: the walk
evicts nothing, the final unconditional eviction is logged at fill level 1. -/
theorem window_buffer_invariant_amended_witness :
    (1 : Nat) ≤ NUMBERS_BUFFER_SIZE ∧ ([1] : List Nat) ≠ [] ∧
    (∀ e ∈ ([1] : List Nat).dropLast, e = NUMBERS_BUFFER_SIZE) ∧
    ([1] : List Nat).getLast? = some 1 := by
  have hok : processSegFull [53, SPLIT_MARKER, 53] = Except.ok
      { str_buffer := [53]
        numbers := (((List.replicate NUMBERS_BUFFER_SIZE 0).set 0 5).rotate 1).set ITEM_RANGE_SIZE 5
        numbers_idx := 1
        result := [5]
        evictLog := [1] } := by rfl
  have h := (window_buffer_invariant_amended [53, SPLIT_MARKER, 53]).2 _ hok
  exact ⟨h.1, h.2.1, h.2.2.1, h.2.2.2⟩

/-! ## Scratch-buffer safety -/

/-- A prefix all of whose elements satisfy `p` is no longer than the
`takeWhile`. -/
theorem prefix_takeWhile_bound (p : Nat → Bool) : ∀ (m t : List Nat), m <+: t →
    (∀ x ∈ m, p x = true) → m.length ≤ (t.takeWhile p).length := by
  intro m
  induction m with
  | nil => intro t _ _; simp
  | cons a m' ihm =>
    intro t hpre hall
    obtain ⟨u, rfl⟩ := hpre
    rw [List.cons_append]
    rw [List.takeWhile_cons_of_pos (hall a (List.mem_cons_self a m'))]
    simp only [List.length_cons]
    have := ihm (m' ++ u) ⟨u, rfl⟩ (fun x hx => hall x (List.mem_cons_of_mem a hx))
    omega

/-- Bounding every `takeWhile` of a tail is the same as bounding every
all-`p` infix. -/
theorem takeWhile_drop_bound_iff (l : List Nat) (p : Nat → Bool) (k : Nat) :
    (∀ i, ((l.drop i).takeWhile p).length ≤ k) ↔
    (∀ m, m <:+: l → (∀ x ∈ m, p x = true) → m.length ≤ k) := by
  constructor
  · intro hd m hm hall
    obtain ⟨t, hpre, hsuf⟩ := List.infix_iff_prefix_suffix.mp hm
    obtain ⟨u, rfl⟩ := hsuf
    have h1 := prefix_takeWhile_bound p m t hpre hall
    have h2 := hd u.length
    rw [List.drop_left] at h2
    omega
  · intro hi i
    refine hi _ (List.infix_iff_prefix_suffix.mpr
      ⟨l.drop i, List.takeWhile_prefix p, List.drop_suffix i l⟩)
      (fun x hx => List.mem_takeWhile_imp hx)

/-- If the current scratch content plus the leading non-delimiter run fits in
the scratch buffer, and every later run fits too, the byte walk never takes
the out-of-bounds branch. -/
theorem processLoop_no_overflow (ys : List Nat) : ∀ s,
    s.str_buffer.length + ((ys.takeWhile (fun b => decide (b ≠ SPLIT_MARKER))).length)
      ≤ STR_U128_LEN →
    (∀ i, (((ys.drop i).takeWhile (fun b => decide (b ≠ SPLIT_MARKER))).length)
      ≤ STR_U128_LEN) →
    processLoop s ys ≠ Except.error PErr.scratchOverflow := by
  induction ys with
  | nil =>
    intro s _ _
    unfold processLoop
    simp
  | cons b tl ih =>
    intro s ha hb
    by_cases hbd : b = SPLIT_MARKER
    · cases hp : parse_number_from_str_buffer s.str_buffer with
      | none =>
        have hstep : processStep s b = Except.error PErr.malformedNumber := by
          unfold processStep
          rw [if_neg (fun hn => hn hbd), hp]
        unfold processLoop
        rw [hstep]
        simp
      | some n =>
        by_cases hfull : s.numbers_idx = NUMBERS_BUFFER_SIZE
        · have hstep : processStep s b = Except.ok
              { str_buffer := []
                numbers := (process_next_number s.result s.numbers n).2
                numbers_idx := s.numbers_idx
                result := (process_next_number s.result s.numbers n).1
                evictLog := s.evictLog ++ [s.numbers_idx] } := by
            unfold processStep
            rw [if_neg (fun hn => hn hbd), hp]
            simp only []
            rw [if_pos hfull]
          unfold processLoop
          rw [hstep]
          apply ih
          · have h1 := hb 1
            simpa using h1
          · intro i
            have h2 := hb (i + 1)
            simpa using h2
        · have hstep : processStep s b = Except.ok
              { str_buffer := []
                numbers := s.numbers.set s.numbers_idx n
                numbers_idx := s.numbers_idx + 1
                result := s.result
                evictLog := s.evictLog } := by
            unfold processStep
            rw [if_neg (fun hn => hn hbd), hp]
            simp only []
            rw [if_neg hfull]
          unfold processLoop
          rw [hstep]
          apply ih
          · have h1 := hb 1
            simpa using h1
          · intro i
            have h2 := hb (i + 1)
            simpa using h2
    · have htw : (b :: tl).takeWhile (fun x => decide (x ≠ SPLIT_MARKER)) =
          b :: tl.takeWhile (fun x => decide (x ≠ SPLIT_MARKER)) :=
        List.takeWhile_cons_of_pos (by simpa using hbd)
      rw [htw] at ha
      simp only [List.length_cons] at ha
      have hlen : s.str_buffer.length < STR_U128_LEN := by omega
      have hstep : processStep s b = Except.ok { s with str_buffer := b :: s.str_buffer } := by
        unfold processStep
        rw [if_pos hbd, if_pos hlen]
      unfold processLoop
      rw [hstep]
      apply ih
      · simp only [List.length_cons]
        omega
      · intro i
        have h2 := hb (i + 1)
        simpa using h2

/-- Claim C9 (scratch-buffer safety).  If every line of the segment (every
maximal run of non-delimiter bytes, viewed from any tail) has at most
`STR_U128_LEN = 39` bytes, the scan never takes the out-of-bounds branch of
the scratch buffer: the write index never underflows and every scratch slice
is valid, so the scan cannot fail with `scratchOverflow`. -/
theorem scratch_buffer_safe (seg : List Nat)
    (h : ∀ i, i < seg.length →
      (((seg.drop i).takeWhile (fun b => decide (b ≠ SPLIT_MARKER))).length)
        ≤ STR_U128_LEN) :
    processSegFull seg ≠ Except.error PErr.scratchOverflow := by
  have hall : ∀ i, (((seg.drop i).takeWhile (fun b => decide (b ≠ SPLIT_MARKER))).length)
      ≤ STR_U128_LEN := by
    intro i
    by_cases hi : i < seg.length
    · exact h i hi
    · rw [List.drop_eq_nil_of_le (by omega)]
      simp
  have hinf := (takeWhile_drop_bound_iff seg _ STR_U128_LEN).mp hall
  have hinfrev : ∀ m, m <:+: seg.reverse →
      (∀ x ∈ m, (fun b => decide (b ≠ SPLIT_MARKER)) x = true) →
      m.length ≤ STR_U128_LEN := by
    intro m hm hx
    have hm' : m.reverse <:+: seg := by
      rw [← List.reverse_reverse m] at hm
      exact List.reverse_infix.mp hm
    have hlen := hinf m.reverse hm' (fun x hx' => hx x (List.mem_reverse.mp hx'))
    simpa using hlen
  have hdrop := (takeWhile_drop_bound_iff seg.reverse _ STR_U128_LEN).mpr hinfrev
  intro hcontra
  unfold processSegFull at hcontra
  cases hloop : processLoop initState seg.reverse with
  | error e =>
    rw [hloop] at hcontra
    simp only [] at hcontra
    injection hcontra with he
    subst he
    refine processLoop_no_overflow seg.reverse initState ?_ hdrop hloop
    have h0 := hdrop 0
    simpa [initState] using h0
  | ok s =>
    rw [hloop] at hcontra
    simp only [] at hcontra
    unfold processFinish at hcontra
    cases hp : parse_number_from_str_buffer s.str_buffer with
    | none => rw [hp] at hcontra; simp at hcontra
    | some n => rw [hp] at hcontra; simp at hcontra

/-- Witness for C9 on the segment `"1\n2"`. -/
theorem scratch_buffer_safe_witness :
    processSegFull [49, SPLIT_MARKER, 50] ≠ Except.error PErr.scratchOverflow :=
  scratch_buffer_safe [49, SPLIT_MARKER, 50] (by decide)

/-! ## Determinism of the scan -/

/-- The fold `scanMultiset` unfolds one segment at a time. -/
theorem scanMultiset_cons (buf : List Nat) (b : Nat × Nat) (l : List (Nat × Nat)) :
    scanMultiset buf (b :: l) =
      match process buf b.1 b.2, scanMultiset buf l with
      | some r, some m => some (Multiset.ofList r + m)
      | _, _ => none := rfl

/-- The fold `scanList` unfolds one segment at a time. -/
theorem scanList_cons (buf : List Nat) (b : Nat × Nat) (l : List (Nat × Nat)) :
    scanList buf (b :: l) =
      match process buf b.1 b.2, scanList buf l with
      | some r, some rs => some (r ++ rs)
      | _, _ => none := rfl

/-- Scanning the segments in any order yields the same anomaly multiset (or
fails in both orders). -/
theorem scanMultiset_perm (buf : List Nat) : ∀ (l₁ l₂ : List (Nat × Nat)), l₁.Perm l₂ →
    scanMultiset buf l₁ = scanMultiset buf l₂ := by
  intro l₁ l₂ hp
  induction hp with
  | nil => rfl
  | cons x hpl ih =>
    rw [scanMultiset_cons, scanMultiset_cons, ih]
  | swap x y l =>
    rw [scanMultiset_cons, scanMultiset_cons, scanMultiset_cons, scanMultiset_cons]
    generalize scanMultiset buf l = acc
    rcases hy : process buf y.1 y.2 with _ | ry <;>
      rcases hx : process buf x.1 x.2 with _ | rx <;>
        rcases acc with _ | m <;>
          first
          | rfl
          | exact congrArg some (add_left_comm _ _ _)
  | trans hp1 hp2 ih1 ih2 => exact ih1.trans ih2

/-- The multiset of the actual ordered scan agrees with the order-insensitive
fold. -/
theorem fullScan_scanMultiset (buf : List Nat) (segs : List (Nat × Nat)) :
    (scanList buf segs).map Multiset.ofList = scanMultiset buf segs := by
  induction segs with
  | nil => rfl
  | cons x l ihl =>
    rw [scanList_cons, scanMultiset_cons]
    rcases hx : process buf x.1 x.2 with _ | r <;>
      rcases hacc : scanList buf l with _ | rs <;>
        rw [hacc] at ihl <;> rw [← ihl] <;> rfl

/-- Claim C10 (determinism).  For a fixed buffer and parallelism the scan is a
pure function: processing the segments of `get_bounds` in any order (any
permutation, as the parallel tasks may complete in any order) produces the
same anomaly multiset, and it is the multiset of the ordered `fullScan`. -/
theorem scan_deterministic_multiset (buf : List Nat) (parallelism : Nat)
    (segs : List (Nat × Nat)) (hperm : segs.Perm (get_bounds buf parallelism)) :
    scanMultiset buf segs = scanMultiset buf (get_bounds buf parallelism) ∧
    (fullScan buf parallelism).map Multiset.ofList
      = scanMultiset buf (get_bounds buf parallelism) :=
  ⟨scanMultiset_perm buf _ _ hperm,
    fullScan_scanMultiset buf (get_bounds buf parallelism)⟩

/-- Witness for C10: the two segments of `bufA` at parallelism 2, processed
in swapped order. -/
theorem scan_deterministic_multiset_witness :
    scanMultiset bufA [(6, 9), (0, 9)] = scanMultiset bufA (get_bounds bufA 2) ∧
    (fullScan bufA 2).map Multiset.ofList = scanMultiset bufA (get_bounds bufA 2) :=
  scan_deterministic_multiset bufA 2 [(6, 9), (0, 9)] (by decide)

/-! ## The zero-padded short window -/

/-- Reading any slot of an all-zero list yields zero. -/
theorem getD_replicate_zero (n i : Nat) : (List.replicate n (0 : Nat)).getD i 0 = 0 := by
  rw [List.getD_eq_getElem?_getD]
  rcases lt_or_ge i n with h | h
  · rw [List.getElem?_eq_getElem (by simpa using h)]
    simp
  · rw [List.getElem?_eq_none_iff.mpr (by simpa using h)]
    rfl

/-- Validation against an all-zero window succeeds exactly for target 0 (with
at least two slots). -/
theorem valid_replicate_zero_iff (t n : Nat) (ht : t < U128_MOD) :
    is_number_valid t (List.replicate n 0) = true ↔ (t = 0 ∧ 2 ≤ n) := by
  rw [is_number_valid_eq_true_iff]
  constructor
  · rintro ⟨i, j, hij, hj, _, _, hsum⟩
    rw [List.length_replicate] at hj
    rw [getD_replicate_zero, getD_replicate_zero] at hsum
    rw [Nat.zero_add, Nat.zero_mod] at hsum
    exact ⟨hsum.symm ▸ rfl, by omega⟩
  · rintro ⟨rfl, h2⟩
    refine ⟨0, 1, by omega, by rw [List.length_replicate]; omega, ?_, ?_, ?_⟩
    · rw [getD_replicate_zero]
    · rw [getD_replicate_zero]
    · rw [getD_replicate_zero, getD_replicate_zero]
      simp

/-- A window of zeros followed by anything validates target 0. -/
theorem valid_zero_concat (m : Nat) (w : List Nat) (hm : 2 ≤ m) :
    is_number_valid 0 (List.replicate m 0 ++ w) = true := by
  rw [is_number_valid_eq_true_iff]
  have hg : ∀ i, i < m → (List.replicate m (0:Nat) ++ w).getD i 0 = 0 := by
    intro i hi
    rw [List.getD_eq_getElem?_getD, List.getElem?_append_left (by simpa using hi)]
    have := getD_replicate_zero m i
    rw [List.getD_eq_getElem?_getD] at this
    rw [this]
  refine ⟨0, 1, by omega, ?_, ?_, ?_, ?_⟩
  · simp only [List.length_append, List.length_replicate]
    omega
  · rw [hg 0 (by omega)]
  · rw [hg 1 (by omega)]
  · rw [hg 0 (by omega), hg 1 (by omega)]
    simp

/-- Parsing one ASCII digit. -/
theorem parse_single_digit (d : Nat) (h1 : 48 ≤ d) (h2 : d ≤ 57) :
    parse_number_from_str_buffer [d] = some (d - 48) := by
  unfold parse_number_from_str_buffer
  simp only []
  rw [if_neg (by omega : ¬ d = 43)]
  unfold parseDigitsAux
  rw [if_pos ⟨h1, h2⟩]
  simp only []
  rw [if_pos (show 0 * 10 + (d - 48) < U128_MOD from
    lt_of_lt_of_le (show 0 * 10 + (d - 48) < 10 by omega)
      (show (10 : Nat) ≤ U128_MOD by unfold U128_MOD; norm_num))]
  unfold parseDigitsAux
  norm_num

/-- Replacing the final slot after a rotation of the freshly filled buffer. -/
theorem set_at_append_length (l : List Nat) (x y : Nat) :
    (l ++ [x]).set l.length y = l ++ [y] := by
  induction l with
  | nil => rfl
  | cons a tl ih => exact congrArg (List.cons a) ih

/-! ## Parser characterisation -/

/-- The digit accumulator never decreases. -/
theorem digits_foldl_mono : ∀ (l : List Nat) (a : Nat),
    a ≤ l.foldl (fun a b => a * 10 + (b - 48)) a := by
  intro l
  induction l with
  | nil => intro a; simp
  | cons b bs ih =>
    intro a
    simp only [List.foldl_cons]
    calc a ≤ a * 10 + (b - 48) := by omega
    _ ≤ _ := ih _

/-- Full characterisation of the digit-run loop. -/
theorem parseDigitsAux_eq_some_iff (ds : List Nat) : ∀ acc v, acc < U128_MOD →
    (parseDigitsAux acc ds = some v ↔
      ((∀ b ∈ ds, 48 ≤ b ∧ b ≤ 57) ∧
       v = ds.foldl (fun a b => a * 10 + (b - 48)) acc ∧
       ds.foldl (fun a b => a * 10 + (b - 48)) acc < U128_MOD)) := by
  induction ds with
  | nil =>
    intro acc v hacc
    unfold parseDigitsAux
    constructor
    · intro h
      injection h with h
      exact ⟨by simp, h.symm, by simpa using hacc⟩
    · rintro ⟨-, rfl, -⟩
      rfl
  | cons b bs ih =>
    intro acc v hacc
    unfold parseDigitsAux
    simp only [List.foldl_cons]
    by_cases hd : 48 ≤ b ∧ b ≤ 57
    · rw [if_pos hd]
      by_cases hover : acc * 10 + (b - 48) < U128_MOD
      · rw [if_pos hover]
        rw [ih (acc * 10 + (b - 48)) v hover]
        constructor
        · rintro ⟨hball, hv, hlt⟩
          refine ⟨?_, hv, hlt⟩
          intro x hx
          rcases List.mem_cons.mp hx with rfl | hx'
          · exact hd
          · exact hball x hx'
        · rintro ⟨hball, hv, hlt⟩
          exact ⟨fun x hx => hball x (List.mem_cons_of_mem b hx), hv, hlt⟩
      · rw [if_neg hover]
        constructor
        · intro h
          exact absurd h (by simp)
        · rintro ⟨-, -, hlt⟩
          exfalso
          have hmono := digits_foldl_mono bs (acc * 10 + (b - 48))
          omega
    · rw [if_neg hd]
      constructor
      · intro h
        exact absurd h (by simp)
      · rintro ⟨hball, -, -⟩
        exact absurd (hball b (List.mem_cons_self b bs)) hd

/-- Claim C6 amended (parser success condition).  The parser returns a value
iff the byte run is a non-empty run of ASCII digits *optionally preceded by a
single `'+'` sign byte* (which `u128::from_str` accepts) whose base-10 value
fits in `u128`; the value is the base-10 value of the digits.  On any other
byte (non-digit other than a leading `'+'`), on an empty run, on a bare
`"+"`, and on overflow it fails — the failure aborts the scan
(`MalformedNumber`) rather than skipping. -/
theorem parser_success_iff (bs : List Nat) (v : Nat) :
    parse_number_from_str_buffer bs = some v ↔
      ∃ ds, (bs = ds ∨ bs = 43 :: ds) ∧ ds ≠ [] ∧
        (∀ b ∈ ds, 48 ≤ b ∧ b ≤ 57) ∧ digitsVal ds = v ∧ v < U128_MOD := by
  have hM : (0 : Nat) < U128_MOD := by unfold U128_MOD; positivity
  constructor
  · intro h
    unfold parse_number_from_str_buffer at h
    cases bs with
    | nil => exact absurd h (by simp)
    | cons b rest =>
      simp only [] at h
      by_cases hb43 : b = 43
      · rw [if_pos hb43] at h
        by_cases hrest : rest = []
        · rw [if_pos hrest] at h
          exact absurd h (by simp)
        · rw [if_neg hrest] at h
          obtain ⟨hball, hv, hlt⟩ := (parseDigitsAux_eq_some_iff rest 0 v hM).mp h
          exact ⟨rest, Or.inr (by rw [hb43]), hrest, hball, hv.symm, hv ▸ hlt⟩
      · rw [if_neg hb43] at h
        obtain ⟨hball, hv, hlt⟩ := (parseDigitsAux_eq_some_iff (b :: rest) 0 v hM).mp h
        exact ⟨b :: rest, Or.inl rfl, by simp, hball, hv.symm, hv ▸ hlt⟩
  · rintro ⟨ds, hshape, hne, hball, hval, hlt⟩
    have hfold : ds.foldl (fun a b => a * 10 + (b - 48)) 0 = v := hval
    have hden : parseDigitsAux 0 ds = some v :=
      (parseDigitsAux_eq_some_iff ds 0 v hM).mpr ⟨hball, hfold.symm, by omega⟩
    rcases hshape with rfl | rfl
    · unfold parse_number_from_str_buffer
      cases bs with
      | nil => exact absurd rfl hne
      | cons b rest =>
        simp only []
        rw [if_neg (by have := hball b (List.mem_cons_self b rest); omega)]
        exact hden
    · unfold parse_number_from_str_buffer
      simp only []
      rw [if_true, if_neg hne]
      exact hden

/-! ## The zero-padded short window (claim C5) -/

/-- Parsing a non-empty run of ASCII digit bytes whose base-10 value fits in
`u128` yields that value. -/
theorem parse_digit_run (ds : List Nat) (hne : ds ≠ [])
    (hball : ∀ b ∈ ds, 48 ≤ b ∧ b ≤ 57) (hlt : digitsVal ds < U128_MOD) :
    parse_number_from_str_buffer ds = some (digitsVal ds) := by
  have hM : (0 : Nat) < U128_MOD := by unfold U128_MOD; positivity
  have hfold : ds.foldl (fun a b => a * 10 + (b - 48)) 0 = digitsVal ds := rfl
  have hden : parseDigitsAux 0 ds = some (digitsVal ds) :=
    (parseDigitsAux_eq_some_iff ds 0 (digitsVal ds) hM).mpr
      ⟨hball, hfold.symm, by rw [hfold]; exact hlt⟩
  cases ds with
  | nil => exact absurd rfl hne
  | cons b rest =>
    unfold parse_number_from_str_buffer
    simp only []
    rw [if_neg (show ¬ b = 43 by
      have := hball b (List.mem_cons_self b rest)
      omega)]
    exact hden

/-- Running the byte loop over a concatenation runs the two halves in turn. -/
theorem processLoop_append (xs ys : List Nat) : ∀ s : ProcState,
    processLoop s (xs ++ ys) =
      match processLoop s xs with
      | Except.ok s2 => processLoop s2 ys
      | Except.error e => Except.error e := by
  induction xs with
  | nil => intro s; rfl
  | cons b bs ih =>
    intro s
    rw [List.cons_append]
    show (match processStep s b with
        | Except.ok s2 => processLoop s2 (bs ++ ys)
        | Except.error e => Except.error e) =
      match (match processStep s b with
        | Except.ok s2 => processLoop s2 bs
        | Except.error e => Except.error e) with
      | Except.ok s2 => processLoop s2 ys
      | Except.error e => Except.error e
    cases processStep s b with
    | ok s2 =>
      simp only []
      exact ih s2
    | error e => rfl

/-- Feeding a run of non-delimiter bytes (in reverse file order) through the
byte loop accumulates the run in the scratch buffer and changes nothing
else. -/
theorem processLoop_digits (ds : List Nat) : ∀ s : ProcState,
    (∀ b ∈ ds, b ≠ SPLIT_MARKER) →
    s.str_buffer.length + ds.length ≤ STR_U128_LEN →
    processLoop s ds.reverse =
      Except.ok { s with str_buffer := ds ++ s.str_buffer } := by
  induction ds with
  | nil =>
    intro s _ _
    rfl
  | cons b tl ih =>
    intro s hball hlen
    have hb : b ≠ SPLIT_MARKER := hball b (List.mem_cons_self b tl)
    have hlen' : s.str_buffer.length + tl.length ≤ STR_U128_LEN := by
      simp only [List.length_cons] at hlen
      omega
    have hstep : processStep { s with str_buffer := tl ++ s.str_buffer } b =
        Except.ok { s with str_buffer := b :: (tl ++ s.str_buffer) } := by
      unfold processStep
      rw [if_pos hb, if_pos (show (tl ++ s.str_buffer).length < STR_U128_LEN by
        simp only [List.length_append]
        simp only [List.length_cons] at hlen
        omega)]
    rw [List.reverse_cons]
    rw [processLoop_append]
    rw [ih s (fun x hx => hball x (List.mem_cons_of_mem b hx)) hlen']
    simp only []
    unfold processLoop
    rw [hstep]
    simp only []
    rfl

/-- Specialisation of the scratch-accumulation lemma to an empty scratch
buffer. -/
theorem processLoop_digits_empty (ds : List Nat) (s : ProcState)
    (hs : s.str_buffer = []) (hball : ∀ b ∈ ds, b ≠ SPLIT_MARKER)
    (hlen : ds.length ≤ STR_U128_LEN) :
    processLoop s ds.reverse = Except.ok { s with str_buffer := ds } := by
  have h := processLoop_digits ds s hball (by rw [hs]; simpa using hlen)
  rw [hs, List.append_nil] at h
  exact h

/-- Claim C5 amended (zero-padded short window).  A number with fewer than
`W` true predecessors is not validated against exactly its available
predecessors: in every two-number segment (two delimiter-separated digit
runs, each of at most `STR_U128_LEN` digits and with value below `2^128`)
the last number is validated against the fixed full-width window whose
slots all still hold artificial zeros — its real predecessor, the first
number, has not yet been inserted — so it is reported iff its value is
nonzero (`0 + 0` matches target `0`), regardless of the predecessor's
value. -/
theorem short_window_amended (bs₁ bs₂ : List Nat)
    (hne₁ : bs₁ ≠ []) (hne₂ : bs₂ ≠ [])
    (hd₁ : ∀ b ∈ bs₁, 48 ≤ b ∧ b ≤ 57) (hd₂ : ∀ b ∈ bs₂, 48 ≤ b ∧ b ≤ 57)
    (hl₁ : bs₁.length ≤ STR_U128_LEN) (hl₂ : bs₂.length ≤ STR_U128_LEN)
    (hv₁ : digitsVal bs₁ < U128_MOD) (hv₂ : digitsVal bs₂ < U128_MOD) :
    processSegResult (bs₁ ++ SPLIT_MARKER :: bs₂) =
      some (if digitsVal bs₂ = 0 then [] else [digitsVal bs₂]) := by
  have hnodelim₁ : ∀ b ∈ bs₁, b ≠ SPLIT_MARKER := by
    intro b hb
    have := hd₁ b hb
    unfold SPLIT_MARKER
    omega
  have hnodelim₂ : ∀ b ∈ bs₂, b ≠ SPLIT_MARKER := by
    intro b hb
    have := hd₂ b hb
    unfold SPLIT_MARKER
    omega
  have hrev : (bs₁ ++ SPLIT_MARKER :: bs₂).reverse
      = bs₂.reverse ++ SPLIT_MARKER :: bs₁.reverse := by
    simp
  have hph1 : processLoop initState bs₂.reverse = Except.ok
      { str_buffer := bs₂
        numbers := List.replicate NUMBERS_BUFFER_SIZE 0
        numbers_idx := 0
        result := []
        evictLog := [] } := by
    rw [processLoop_digits_empty bs₂ initState rfl hnodelim₂ hl₂]
    rfl
  have hph2 : processStep
      { str_buffer := bs₂
        numbers := List.replicate NUMBERS_BUFFER_SIZE 0
        numbers_idx := 0
        result := []
        evictLog := [] } SPLIT_MARKER = Except.ok
      { str_buffer := []
        numbers := (List.replicate NUMBERS_BUFFER_SIZE 0).set 0 (digitsVal bs₂)
        numbers_idx := 1
        result := []
        evictLog := [] } := by
    unfold processStep
    rw [if_neg (fun hn => hn rfl)]
    simp only []
    rw [parse_digit_run bs₂ hne₂ hd₂ hv₂]
    simp only []
    rw [if_neg (by decide : ¬ (0 = NUMBERS_BUFFER_SIZE))]
  have hph3 : processLoop
      { str_buffer := []
        numbers := (List.replicate NUMBERS_BUFFER_SIZE 0).set 0 (digitsVal bs₂)
        numbers_idx := 1
        result := []
        evictLog := [] } bs₁.reverse = Except.ok
      { str_buffer := bs₁
        numbers := (List.replicate NUMBERS_BUFFER_SIZE 0).set 0 (digitsVal bs₂)
        numbers_idx := 1
        result := []
        evictLog := [] } := by
    rw [processLoop_digits_empty bs₁ { str_buffer := [], numbers := (List.replicate NUMBERS_BUFFER_SIZE 0).set 0 (digitsVal bs₂), numbers_idx := 1, result := [], evictLog := [] } rfl hnodelim₁ hl₁]
  have hnum : (List.replicate NUMBERS_BUFFER_SIZE 0).set 0 (digitsVal bs₂)
      = digitsVal bs₂ :: List.replicate 100 0 := rfl
  unfold processSegResult processSegFull
  rw [hrev]
  rw [processLoop_append]
  rw [hph1]
  simp only []
  unfold processLoop
  rw [hph2]
  simp only []
  rw [hph3]
  simp only []
  unfold processFinish
  simp only []
  rw [parse_digit_run bs₁ hne₁ hd₁ hv₁]
  simp only []
  unfold process_next_number
  rw [hnum]
  simp only [List.headD_cons, List.drop_succ_cons, List.drop_zero]
  have hrot : (digitsVal bs₂ :: List.replicate 100 0).rotate 1
      = List.replicate 100 0 ++ [digitsVal bs₂] := by
    rw [List.rotate_cons_succ, List.rotate_zero]
  have hset : (List.replicate 100 0 ++ [digitsVal bs₂]).set ITEM_RANGE_SIZE (digitsVal bs₁)
      = List.replicate 100 0 ++ [digitsVal bs₁] := by
    have h100 : ITEM_RANGE_SIZE = (List.replicate 100 (0:Nat)).length := by
      rw [List.length_replicate]
      decide
    rw [h100, set_at_append_length]
  rw [hrot, hset]
  have hfinal : is_number_valid ((List.replicate 100 0 ++ [digitsVal bs₁]).headD 0)
      (List.drop 1 (List.replicate 100 0 ++ [digitsVal bs₁])) = true := by
    rw [show (List.replicate 100 (0:Nat) ++ [digitsVal bs₁]).headD 0 = 0 from rfl]
    rw [show List.drop 1 (List.replicate 100 (0:Nat) ++ [digitsVal bs₁])
        = List.replicate 99 0 ++ [digitsVal bs₁] from rfl]
    exact valid_zero_concat 99 [digitsVal bs₁] (by omega)
  rw [if_pos hfinal]
  by_cases hz : digitsVal bs₂ = 0
  · rw [if_pos ((valid_replicate_zero_iff _ 100 hv₂).mpr ⟨hz, by omega⟩)]
    rw [if_pos hz]
  · rw [if_neg (fun hv => absurd ((valid_replicate_zero_iff _ 100 hv₂).mp hv) (by omega))]
    rw [if_neg hz]
    simp

/-- Witness for the amended C5: on the two-number segment `"1\n9"` the last
number 9 is reported — its all-zero window cannot produce 9 — even though its
real predecessor is 1. -/
theorem short_window_amended_witness :
    processSegResult [49, SPLIT_MARKER, 57] = some [9] := by
  have h := short_window_amended [49] [57] (by decide) (by decide) (by decide)
    (by decide) (by decide) (by decide) (by decide) (by decide)
  simpa [digitsVal] using h
